import Mathlib

/-!
# Game of Life, multithreaded (`gol.c`): a shallow embedding

The C program keeps two heap blocks of `rows * cols` ints (the current and the
next board), a global `total_live`, and one `struct gol_data` per thread.  The
embedding below keeps the same names.

Conventions of the embedding

* C `int` is `Int`; no arithmetic of the program is taken modulo `2^32`
  (signed overflow is undefined in C and every quantity of the theorems is
  bounded by `rows * cols`).
* `a / b` and `a % b` of C are `Int.tdiv` and `Int.tmod` (truncation).
* A pointer to a board is a `BufId`; the heap blocks and `total_live` form `Mem`.
* `b[k]` is `load b k` and `b[k] = v` is `store b k v`; an access outside the
  block is undefined in C, here it reads `0` and writes nothing.  The theorems
  state the range of the indices separately.
* `for (x = lo; x <= hi; x++)` is a left fold over `int_range lo hi`.
* `exit(1)` is an `Except` error, a division by zero is `none`.
-/

namespace GOL

/-! ## Data model -/

/-- The two blocks allocated by `init_game_data_from_args`: `fst` by the first
`malloc` (line 349), `snd` by the second one (line 363). -/
inductive BufId where
  | fst
  | snd
  deriving DecidableEq, Repr

/-- The `struct gol_data` of the source (the ParaVis fields are left out). -/
structure gol_data where
  curr_iter : Int
  rows : Int
  cols : Int
  iters : Int
  output_mode : Int
  gol_board : BufId
  next_board : BufId
  threads : Int
  ntids : Int
  part_mode : Int
  print_config : Int
  start : Int
  end_ : Int
  deriving DecidableEq, Repr

/-- The memory shared by all threads: both boards and the global `total_live`. -/
structure Mem where
  board_fst : List Int
  board_snd : List Int
  total_live : Int
  deriving DecidableEq, Repr

/-- The block a pointer designates. -/
def Mem.get (m : Mem) : BufId → List Int
  | .fst => m.board_fst
  | .snd => m.board_snd

/-- Replace the block a pointer designates. -/
def Mem.set (m : Mem) (p : BufId) (b : List Int) : Mem :=
  match p with
  | .fst => { m with board_fst := b }
  | .snd => { m with board_snd := b }

/-- The read `b[k]`. -/
def load (b : List Int) (k : Int) : Int :=
  if 0 ≤ k then b.getD k.toNat 0 else 0

/-- The write `b[k] = v`. -/
def store (b : List Int) (k : Int) (v : Int) : List Int :=
  if 0 ≤ k then b.set k.toNat v else b

/-- The values `lo, lo+1, ..., hi` a loop `for (x = lo; x <= hi; x++)` visits. -/
def int_range (lo hi : Int) : List Int :=
  (List.range (hi + 1 - lo).toNat).map (fun (n : Nat) => lo + (n : Int))

/-! ## `partition` (lines 380-425) -/

/-- The body shared by both branches of `partition`, for a dimension `dim`
(`data->rows` in the first branch, `data->cols` in the second). -/
def partition_branch (data : gol_data) (dim : Int) : Option gol_data :=
  if data.threads = 0 then none
  else
    let alloc := dim.tdiv data.threads
    let remainder := dim.tmod data.threads
    let count := remainder - data.ntids
    if count > 0 then
      let start := (alloc + 1) * data.ntids
      some { data with start := start, end_ := start + alloc }
    else if count = 0 then
      let start := (alloc + 1) * data.ntids
      some { data with start := start, end_ := start + alloc - 1 }
    else
      let start := data.ntids * alloc + remainder
      some { data with start := start, end_ := start + alloc - 1 }

/-- The function `partition`: sets `start` and `end` from the thread index. -/
def partition (data : gol_data) : Option gol_data :=
  (if data.part_mode = 0 then partition_branch data data.rows else some data).bind
    fun data => if data.part_mode = 1 then partition_branch data data.cols else some data

/-- The range `(start, end)` that `partition` gives to thread index `t`. -/
def thread_range (data : gol_data) (t : Int) : Option (Int × Int) :=
  (partition { data with ntids := t }).map fun d => (d.start, d.end_)

/-- The dimension `partition` splits: rows when `part_mode = 0`, else columns. -/
def split_dim (data : gol_data) : Int :=
  if data.part_mode = 0 then data.rows else data.cols

/-! ## `count_neighbors` (lines 720-742) -/

/-- The eight indices of `gol_board` that `count_neighbors` reads, in order. -/
def count_neighbors_reads (data : gol_data) (i j : Int) : List Int :=
  [ (((i - 1) + data.rows).tmod data.rows) * data.cols + (((j - 1) + data.cols).tmod data.cols),
    (((i - 1) + data.rows).tmod data.rows) * data.cols + ((j + data.cols).tmod data.cols),
    (((i - 1) + data.rows).tmod data.rows) * data.cols + (((j + 1) + data.cols).tmod data.cols),
    ((i + data.rows).tmod data.rows) * data.cols + (((j - 1) + data.cols).tmod data.cols),
    ((i + data.rows).tmod data.rows) * data.cols + (((j + 1) + data.cols).tmod data.cols),
    (((i + 1) + data.rows).tmod data.rows) * data.cols + (((j - 1) + data.cols).tmod data.cols),
    (((i + 1) + data.rows).tmod data.rows) * data.cols + ((j + data.cols).tmod data.cols),
    (((i + 1) + data.rows).tmod data.rows) * data.cols + (((j + 1) + data.cols).tmod data.cols) ]

/-- The function `count_neighbors`: the sum of the eight reads. -/
def count_neighbors (m : Mem) (data : gol_data) (i j : Int) : Int :=
  ((count_neighbors_reads data i j).map (load (m.get data.gol_board))).sum

/-! ## `play_round` (lines 609-706) -/

/-- The body of the inner loop of `play_round` for the cell `(i, j)`; the state
is the memory and the local `live`. -/
def play_cell (data : gol_data) (s : Mem × Int) (i j : Int) : Mem × Int :=
  let k := i * data.cols + j
  if load (s.1.get data.gol_board) k = 0 then
    if count_neighbors s.1 data i j = 3 then
      (s.1.set data.next_board (store (s.1.get data.next_board) k 1), s.2 + 1)
    else
      (s.1.set data.next_board (store (s.1.get data.next_board) k 0), s.2)
  else if load (s.1.get data.gol_board) k = 1 then
    if count_neighbors s.1 data i j = 2 ∨ count_neighbors s.1 data i j = 3 then
      (s.1.set data.next_board (store (s.1.get data.next_board) k 1), s.2)
    else
      (s.1.set data.next_board (store (s.1.get data.next_board) k 0), s.2 - 1)
  else s

/-- The row-wise loops of `play_round` (`part_mode == 0`). -/
def play_rows (data : gol_data) (s : Mem × Int) : Mem × Int :=
  (int_range data.start data.end_).foldl
    (fun s i => (int_range 0 (data.cols - 1)).foldl (fun s j => play_cell data s i j) s) s

/-- The column-wise loops of `play_round` (`part_mode == 1`). -/
def play_cols (data : gol_data) (s : Mem × Int) : Mem × Int :=
  (int_range 0 (data.rows - 1)).foldl
    (fun s i => (int_range data.start data.end_).foldl (fun s j => play_cell data s i j) s) s

/-- The function `play_round`: both guarded loop nests, then `total_live += live`. -/
def play_round (m : Mem) (data : gol_data) : Mem :=
  let s0 : Mem × Int := (m, 0)
  let s1 := if data.part_mode = 0 then play_rows data s0 else s0
  let s2 := if data.part_mode = 1 then play_cols data s1 else s1
  { s2.1 with total_live := s2.1.total_live + s2.2 }

/-! ## Seed loading: `init_board` (lines 432-460), `init_game_data_from_args` (lines 286-375) -/

/-- The ways initialization ends the process with `exit(1)`. -/
inductive InitError where
  | invalid_output_mode
  | unable_to_open_file
  | out_of_range
  deriving DecidableEq, Repr

/-- The integers of a seed file: the four header values and the coordinate
pairs that follow them.  (A file with a token that is not an integer, or a
failing `malloc`, is outside the embedding.) -/
structure SeedFile where
  rows : Int
  cols : Int
  iters : Int
  total_live : Int
  cells : List (Int × Int)
  deriving DecidableEq, Repr

/-- The command line after `atoi`: `argv[2]` to `argv[5]`, and the file named
by `argv[1]` (`none` when `fopen` returns `NULL`). -/
structure Args where
  infile : Option SeedFile
  output_mode : Int
  threads : Int
  part_mode : Int
  print_config : Int
  deriving DecidableEq, Repr

/-- The two inner loops of `init_board` (lines 449-456): set the cell `(row, col)`. -/
def mark_cell (data : gol_data) (board : List Int) (row col : Int) : List Int :=
  (int_range 0 (data.rows - 1)).foldl
    (fun b i => (int_range 0 (data.cols - 1)).foldl
      (fun b j => if i = row ∧ j = col then store b (i * data.cols + j) 1 else b) b) board

/-- The outer loop of `init_board` with `n` iterations left.  `row` and `col`
are the current values of the locals: `fscanf` overwrites them with the next
pair, and leaves them as they are at the end of the file (it then returns
`EOF`, which the test `ret == 0` lets through). -/
def init_board_loop (data : gol_data) :
    Nat → Int → Int → List (Int × Int) → Mem → Except InitError Mem
  | 0, _, _, _, m => .ok m
  | n + 1, row, col, file, m =>
    let row := (file.head?.map Prod.fst).getD row
    let col := (file.head?.map Prod.snd).getD col
    if row > data.rows - 1 ∨ col > data.cols - 1 then .error .out_of_range
    else
      init_board_loop data n row col file.tail
        (m.set data.gol_board (mark_cell data (m.get data.gol_board) row col))

/-- The function `init_board`: `total_live` iterations.  `row` and `col` are
the (indeterminate) values the locals hold before the first `fscanf`. -/
def init_board (m : Mem) (data : gol_data) (row col : Int) (file : List (Int × Int)) :
    Except InitError Mem :=
  init_board_loop data m.total_live.toNat row col file m

/-- The function `init_game_data_from_args`.  `data` is the caller's struct as
it is before the call, `row` and `col` as in `init_board`. -/
def init_game_data_from_args (data : gol_data) (argv : Args) (row col : Int) :
    Except InitError (gol_data × Mem) :=
  let data := { data with curr_iter := 0, threads := argv.threads,
                          part_mode := argv.part_mode, print_config := argv.print_config }
  if ¬ (argv.output_mode = 0 ∨ argv.output_mode = 1 ∨ argv.output_mode = 2) then
    .error .invalid_output_mode
  else
    let data := { data with output_mode := argv.output_mode }
    match argv.infile with
    | none => .error .unable_to_open_file
    | some f =>
      let data := { data with rows := f.rows, cols := f.cols, iters := f.iters,
                              gol_board := .fst }
      let m : Mem := { board_fst := List.replicate (f.rows * f.cols).toNat 0,
                       board_snd := [], total_live := f.total_live }
      match init_board m data row col f.cells with
      | .error e => .error e
      | .ok m =>
        .ok ({ data with next_board := .snd },
             { m with board_snd := List.replicate (f.rows * f.cols).toNat 0 })

/-! ## The driver `main` (lines 131-270) up to thread creation -/

/-- The number of threads `main` creates (lines 170-172). -/
def main_ntids (argv : Args) : Int :=
  if argv.threads < 1 ∨ argv.threads > 50 then 10 else argv.threads

/-- The count the barrier is created with (line 168):
`pthread_barrier_init(&barrier, NULL, data.threads)`. -/
def main_barrier_count (data : gol_data) : Int :=
  data.threads

/-- The array `targs` after `n` iterations of the creation loop (lines 187-195):
`targs[i] = data; targs[i].ntids = i; partition(&targs[i])`. -/
def main_targs (data : gol_data) : Nat → Option (List gol_data)
  | 0 => some []
  | n + 1 =>
    (main_targs data n).bind fun ts =>
      (partition { data with ntids := (n : Int) }).map fun d => ts ++ [d]

/-- The first `partition` call of `main` (lines 188-191 with `i = 0`):
`targs[0] = data; targs[0].ntids = 0; partition(&targs[0])`.  It comes after
initialization and before the first `pthread_create`. -/
def main_first_partition (data : gol_data) : Option gol_data :=
  partition { data with ntids := 0 }

/-- How `main` stands once the creation loop is over. -/
inductive Startup where
  | init_failed (e : InitError)
  | trapped
  | started (m : Mem) (data : gol_data) (targs : List gol_data)
  deriving DecidableEq, Repr

/-- The function `main` from its first line to the end of the creation loop:
`main`'s own statements.  With `data.threads < 1` the barrier of line 168 is
not validly created, and what the threads already created then do to the
process during the loop is not described here. -/
def main_startup (data : gol_data) (argv : Args) (row col : Int) : Startup :=
  match init_game_data_from_args data argv row col with
  | .error e => .init_failed e
  | .ok (data, m) =>
    match main_targs data (main_ntids argv).toNat with
    | none => .trapped
    | some targs => .started m data targs

/-! ## The thread function `play_gol` (lines 471-599)

All threads run the same loop: barrier, `play_round`, barrier, swap of the two
board pointers of the thread's own struct.  Between the two barriers of a
round the threads are taken to run `play_round` one after the other, in an
order the scheduler chooses (`order`, a list of thread indices). -/

/-- The three branches of `play_gol` run the loop; any other mode runs nothing. -/
def runs_loop (data : gol_data) : Bool :=
  data.output_mode = 0 || data.output_mode = 2 || data.output_mode = 1

/-- The pointer swap at the end of an iteration (lines 530-532). -/
def swap_boards (data : gol_data) : gol_data :=
  { data with gol_board := data.next_board, next_board := data.gol_board }

/-- The compute phase of one round: the threads of `order` call `play_round`. -/
def compute_phase (m : Mem) (targs : List gol_data) (order : List Nat) : Mem :=
  order.foldl
    (fun m t =>
      match targs[t]? with
      | some d => if runs_loop d then play_round m d else m
      | none => m) m

/-- One round of all threads: compute phase, then every thread swaps. -/
def gol_round (s : Mem × List gol_data) (order : List Nat) : Mem × List gol_data :=
  (compute_phase s.1 s.2 order,
   s.2.map fun d => if runs_loop d then swap_boards d else d)

/-- The rounds of `play_gol`, one entry of `sched` per round. -/
def play_gol (m : Mem) (targs : List gol_data) (sched : List (List Nat)) :
    Mem × List gol_data :=
  sched.foldl gol_round (m, targs)

/-- The board a struct's `gol_board` designates. -/
def current_board (m : Mem) (data : gol_data) : List Int :=
  m.get data.gol_board

/-! # Auxiliary definitions

Definitions used to state and prove the theorems; none of them is part of the
program. -/

/-- The `start` that `partition` computes for dimension `D`, `T` threads and
thread index `t`. -/
def range_start (D T t : Int) : Int :=
  if D.tmod T - t > 0 then (D.tdiv T + 1) * t
  else if D.tmod T - t = 0 then (D.tdiv T + 1) * t
  else t * D.tdiv T + D.tmod T

/-- The `end` that `partition` computes for dimension `D`, `T` threads and
thread index `t`. -/
def range_end (D T t : Int) : Int :=
  if D.tmod T - t > 0 then (D.tdiv T + 1) * t + D.tdiv T
  else if D.tmod T - t = 0 then (D.tdiv T + 1) * t + D.tdiv T - 1
  else t * D.tdiv T + D.tmod T + D.tdiv T - 1

/-- The eight offsets `(di, dj)` of `{-1,0,1}²` other than `(0,0)`, row by row. -/
def neighbor_offsets : List (Int × Int) :=
  [(-1, -1), (-1, 0), (-1, 1), (0, -1), (0, 1), (1, -1), (1, 0), (1, 1)]

/-- The toroidal neighbour sum as the specification words it: the cells at
`((i+di) mod rows, (j+dj) mod cols)` with the mathematical `mod`. -/
def toroidal_count (board : List Int) (rows cols i j : Int) : Int :=
  (neighbor_offsets.map fun o =>
    load board (((i + o.1) % rows) * cols + ((j + o.2) % cols))).sum

/-- Every cell of the board is `0` or `1`. -/
def binary_board (b : List Int) : Prop :=
  ∀ x ∈ b, x = 0 ∨ x = 1

/-- The neighbour count as a function of the current board alone. -/
def neighbors_of (cur : List Int) (data : gol_data) (i j : Int) : Int :=
  ((count_neighbors_reads data i j).map (load cur)).sum

/-- What `play_round` stores for a cell whose current value is `c` and whose
neighbour count is `n`: nothing when `c` is neither `0` nor `1`. -/
def cell_write (c n : Int) : Option Int :=
  if c = 0 then (if n = 3 then some 1 else some 0)
  else if c = 1 then (if n = 2 ∨ n = 3 then some 1 else some 0)
  else none

/-- What `play_round` adds to its local `live` for such a cell. -/
def cell_delta (c n : Int) : Int :=
  if c = 0 then (if n = 3 then 1 else 0)
  else if c = 1 then (if n = 2 ∨ n = 3 then 0 else -1)
  else 0

/-- The value stored for the cell `(i, j)`, if any. -/
def write_at (cur : List Int) (data : gol_data) (i j : Int) : Option Int :=
  cell_write (load cur (i * data.cols + j)) (neighbors_of cur data i j)

/-- The change of `live` caused by the cell `(i, j)`. -/
def delta_at (cur : List Int) (data : gol_data) (i j : Int) : Int :=
  cell_delta (load cur (i * data.cols + j)) (neighbors_of cur data i j)

/-- The loop body of `play_round` seen from the next board and `live` only. -/
def cell_step (cur : List Int) (data : gol_data) (p : List Int × Int) (i j : Int) :
    List Int × Int :=
  (match write_at cur data i j with
   | some v => store p.1 (i * data.cols + j) v
   | none => p.1,
   p.2 + delta_at cur data i j)

/-- Two nested loops of `cell_step`, rows `is` and columns `js`. -/
def grid_step (cur : List Int) (data : gol_data) (is js : List Int) (p : List Int × Int) :
    List Int × Int :=
  is.foldl (fun p i => js.foldl (fun p j => cell_step cur data p i j) p) p

/-- The sum of `delta_at` over rows `is` and columns `js`. -/
def grid_delta (cur : List Int) (data : gol_data) (is js : List Int) : Int :=
  (is.map fun i => (js.map fun j => delta_at cur data i j).sum).sum

/-- The rows a thread visits in `play_round`. -/
def visit_rows (data : gol_data) : List Int :=
  if data.part_mode = 0 then int_range data.start data.end_
  else if data.part_mode = 1 then int_range 0 (data.rows - 1)
  else []

/-- The columns a thread visits in `play_round`. -/
def visit_cols (data : gol_data) : List Int :=
  if data.part_mode = 0 then int_range 0 (data.cols - 1)
  else if data.part_mode = 1 then int_range data.start data.end_
  else []

/-- The memory with the next board of `data` replaced, paired with `live`. -/
def with_next (m : Mem) (data : gol_data) (p : List Int × Int) : Mem × Int :=
  (m.set data.next_board p.1, p.2)

/-- A stored value replaces the old one; no store keeps it. -/
def upd (w : Option Int) (old : Int) : Int :=
  w.getD old

/-- The range of the thread lies inside the dimension it splits. -/
def range_in_grid (d : gol_data) : Prop :=
  0 ≤ d.start ∧ d.end_ < split_dim d

instance (d : gol_data) : Decidable (range_in_grid d) := by
  unfold range_in_grid
  infer_instance

instance (b : List Int) : Decidable (binary_board b) := by
  unfold binary_board
  infer_instance

/-- The cell `(i, j)` is one the thread visits: row `i` in `[start, end]` for
`part_mode = 0`, column `j` in `[start, end]` for `part_mode = 1`, the other
coordinate anywhere in the grid. -/
def in_partition (d : gol_data) (i j : Int) : Prop :=
  (d.part_mode = 0 ∧ d.start ≤ i ∧ i ≤ d.end_ ∧ 0 ≤ j ∧ j < d.cols) ∨
  (d.part_mode = 1 ∧ 0 ≤ i ∧ i < d.rows ∧ d.start ≤ j ∧ j ≤ d.end_)

instance (d : gol_data) (i j : Int) : Decidable (in_partition d i j) := by
  unfold in_partition
  infer_instance

/-- The struct of thread `t` once `partition` has run: a copy of `data` with the
thread index and the range of `t`. -/
def thread_of (data : gol_data) (t : Int) : gol_data :=
  { data with ntids := t,
              start := range_start (split_dim data) data.threads t,
              end_ := range_end (split_dim data) data.threads t }

/-- The array `targs` for `n` threads. -/
def team_of (data : gol_data) (n : Nat) : List gol_data :=
  (List.range n).map fun (t : Nat) => thread_of data (t : Int)

/-- Cell `k` of the next generation: the value `play_round` stores for the cell
at row `k / cols`, column `k % cols`, or the old content when it stores none. -/
def next_cell (cur old : List Int) (data : gol_data) (k : Nat) : Int :=
  upd (write_at cur data ((k : Int) / data.cols) ((k : Int) % data.cols)) (old.getD k 0)

/-- The next board after all cells have been visited once. -/
def next_board_of (cur old : List Int) (data : gol_data) : List Int :=
  (List.range old.length).map (next_cell cur old data)

/-- The change of the live count over the whole grid. -/
def total_delta (cur : List Int) (data : gol_data) : Int :=
  grid_delta cur data (int_range 0 (data.rows - 1)) (int_range 0 (data.cols - 1))

/-- The memory after a whole round, whoever computed which cell. -/
def full_round (m : Mem) (data : gol_data) : Mem :=
  { m.set data.next_board
      (next_board_of (m.get data.gol_board) (m.get data.next_board) data) with
    total_live := m.total_live + total_delta (m.get data.gol_board) data }

/-- The memory and the (swapped) struct after `k` whole rounds. -/
def life : Nat → Mem → gol_data → Mem × gol_data
  | 0, m, data => (m, data)
  | k + 1, m, data => life k (full_round m data) (swap_boards data)

/-- The two boards are distinct blocks of `rows * cols` cells, `rows, cols ≥ 1`. -/
def well_formed (m : Mem) (data : gol_data) : Prop :=
  data.gol_board ≠ data.next_board ∧
  ((m.get data.gol_board).length : Int) = data.rows * data.cols ∧
  ((m.get data.next_board).length : Int) = data.rows * data.cols ∧
  1 ≤ data.rows ∧ 1 ≤ data.cols

instance (m : Mem) (data : gol_data) : Decidable (well_formed m data) := by
  unfold well_formed
  infer_instance

/-- The number of cells equal to `1`. -/
def live_count (b : List Int) : Int :=
  (b.count 1 : Nat)

/-- The struct `init_game_data_from_args` leaves in `data` when it returns `0`. -/
def init_data (data : gol_data) (argv : Args) (f : SeedFile) : gol_data :=
  { data with curr_iter := 0, threads := argv.threads, part_mode := argv.part_mode,
              print_config := argv.print_config, output_mode := argv.output_mode,
              rows := f.rows, cols := f.cols, iters := f.iters,
              gol_board := .fst, next_board := .snd }

/-- A board of `rows * cols` zeros. -/
def zero_board (rows cols : Int) : List Int :=
  List.replicate (rows * cols).toNat 0

/-- The memory when `init_board` is called: a zeroed first block, no second
block yet, and `total_live` as read from the file. -/
def init_mem (f : SeedFile) : Mem :=
  { board_fst := zero_board f.rows f.cols, board_snd := [], total_live := f.total_live }

/-! ## Concrete inputs for the witnesses -/

/-- A 3 x 3 game, one thread, row-wise, the thread owning all three rows. -/
def demo_data : gol_data :=
  ⟨0, 3, 3, 2, 0, .fst, .snd, 1, 0, 0, 0, 0, 2⟩

/-- A 3 x 3 memory with the middle column alive. -/
def demo_mem : Mem :=
  ⟨[0, 1, 0, 0, 1, 0, 0, 1, 0], [0, 0, 0, 0, 0, 0, 0, 0, 0], 3⟩

/-- An empty 3 x 3 seed, two rounds. -/
def empty_seed : SeedFile :=
  ⟨3, 3, 2, 0, []⟩

/-- A command line for `empty_seed`: no output, two threads, column-wise. -/
def empty_args : Args :=
  ⟨some empty_seed, 0, 2, 1, 0⟩

/-- The cell `(row, col)` lies in the grid of `data`. -/
def in_grid (data : gol_data) (c : Int × Int) : Prop :=
  0 ≤ c.1 ∧ c.1 < data.rows ∧ 0 ≤ c.2 ∧ c.2 < data.cols

instance (data : gol_data) (c : Int × Int) : Decidable (in_grid data c) := by
  unfold in_grid
  infer_instance

/-- The board after `init_board` has marked the cells `cs`, one by one. -/
def mark_all (data : gol_data) (b : List Int) (cs : List (Int × Int)) : List Int :=
  cs.foldl (fun b c => mark_cell data b c.1 c.2) b

/-- The board of `rows * cols` cells whose live cells are exactly `cs`. -/
def board_of_cells (rows cols : Int) (cs : List (Int × Int)) : List Int :=
  (List.range (rows * cols).toNat).map fun (k : Nat) =>
    if ((k : Int) / cols, (k : Int) % cols) ∈ cs then 1 else 0

/-- The glider seed on a 10 x 10 grid, four rounds. -/
def glider_seed : SeedFile :=
  ⟨10, 10, 4, 5, [(0, 1), (1, 2), (2, 0), (2, 1), (2, 2)]⟩

/-- The cells of the glider, each moved by one row and one column on the torus. -/
def glider_shifted : List (Int × Int) :=
  glider_seed.cells.map fun c => ((c.1 + 1) % 10, (c.2 + 1) % 10)

/-- A struct with the dimensions and the pointers of the glider game. -/
def glider_data : gol_data :=
  ⟨0, 10, 10, 4, 0, .fst, .snd, 1, 0, 0, 0, 0, 0⟩

/-- The memory after the glider seed has been loaded. -/
def glider_mem : Mem :=
  { board_fst := board_of_cells 10 10 glider_seed.cells,
    board_snd := zero_board 10 10,
    total_live := 5 }

/-- A command line for the glider: no output, three threads, row-wise. -/
def glider_args : Args :=
  ⟨some glider_seed, 0, 3, 0, 0⟩

/-- A 3 x 3 seed whose only pair has a negative row. -/
def negative_seed : SeedFile :=
  ⟨3, 3, 1, 1, [(-1, 0)]⟩

/-- A command line for `negative_seed`. -/
def negative_args : Args :=
  ⟨some negative_seed, 0, 1, 0, 0⟩

/-- A command line with thread count `-1` and orientation flag `2`. -/
def bad_args : Args :=
  ⟨some empty_seed, 0, -1, 2, 0⟩

/-- The number of threads `main` has created, `0` when it did not get there. -/
def threads_created : Startup → Nat
  | .started _ _ targs => targs.length
  | _ => 0

/-- Initialization returned `0`. -/
def init_accepts (r : Except InitError (gol_data × Mem)) : Bool :=
  match r with
  | .ok _ => true
  | .error _ => false

/-- A 3 x 3 seed that lists the cell `(1, 1)` twice and declares two live cells. -/
def dup_seed : SeedFile :=
  ⟨3, 3, 1, 2, [(1, 1), (1, 1)]⟩

/-- A command line for `dup_seed`: one thread, row-wise. -/
def dup_args : Args :=
  ⟨some dup_seed, 0, 1, 0, 0⟩

/-- A 3 x 3 seed with two distinct cells. -/
def pair_seed : SeedFile :=
  ⟨3, 3, 2, 2, [(0, 0), (1, 1)]⟩

/-- A command line for `pair_seed`: two threads, column-wise. -/
def pair_args : Args :=
  ⟨some pair_seed, 0, 2, 1, 0⟩

/-- After the rounds of `sched`: `total_live`, and for each thread the number of
cells equal to `1` in the board it designates as current (`none` when `main`
did not create its threads). -/
def run_summary (s : Startup) (sched : List (List Nat)) : Option (Int × List Int) :=
  match s with
  | .started m _ targs =>
    some ((play_gol m targs sched).1.total_live,
          (play_gol m targs sched).2.map fun d =>
            live_count (current_board (play_gol m targs sched).1 d))
  | _ => none

/-- A 60 x 1 seed without live cells. -/
def tall_seed : SeedFile :=
  ⟨60, 1, 1, 0, []⟩

/-- A command line for `tall_seed` that asks for 51 threads, row-wise. -/
def many_args : Args :=
  ⟨some tall_seed, 0, 51, 0, 0⟩

/-- Some created thread has the index `x` in its range. -/
def covered_by (s : Startup) (x : Int) : Bool :=
  match s with
  | .started _ _ targs => targs.any fun w => decide (w.start ≤ x ∧ x ≤ w.end_)
  | _ => false

/-- The cells a thread visits in `play_round`, in the order of its loops. -/
def partition_cells (d : gol_data) : List (Int × Int) :=
  (visit_rows d).flatMap fun i => (visit_cols d).map fun j => (i, j)

/-- The number of cells of the partition that are `0` in `cur` and `1` in `nxt`. -/
def born_count (d : gol_data) (cur nxt : List Int) : Int :=
  ((partition_cells d).countP fun c =>
    decide (load cur (c.1 * d.cols + c.2) = 0 ∧ load nxt (c.1 * d.cols + c.2) = 1) : Nat)

/-- The number of cells of the partition that are `1` in `cur` and `0` in `nxt`. -/
def died_count (d : gol_data) (cur nxt : List Int) : Int :=
  ((partition_cells d).countP fun c =>
    decide (load cur (c.1 * d.cols + c.2) = 1 ∧ load nxt (c.1 * d.cols + c.2) = 0) : Nat)

/-- The number of cells of the partition that are `1` in `b`. -/
def live_in (d : gol_data) (b : List Int) : Int :=
  ((partition_cells d).countP fun c => decide (load b (c.1 * d.cols + c.2) = 1) : Nat)

/-- The rule B3/S23 for the cell `(i, j)` as the specification words it: alive
when alive with two or three neighbours or dead with three, dead otherwise. -/
def rule_cell (b : List Int) (rows cols i j : Int) : Int :=
  if (load b (i * cols + j) = 1 ∧
        (toroidal_count b rows cols i j = 2 ∨ toroidal_count b rows cols i j = 3)) ∨
     (load b (i * cols + j) = 0 ∧ toroidal_count b rows cols i j = 3)
  then 1 else 0

/-- The generation that follows the board `b`. -/
def next_generation (rows cols : Int) (b : List Int) : List Int :=
  (List.range b.length).map fun (k : Nat) =>
    rule_cell b rows cols ((k : Int) / cols) ((k : Int) % cols)

/-- Generation `k` of the board `b`. -/
def generation (rows cols : Int) : Nat → List Int → List Int
  | 0, b => b
  | k + 1, b => generation rows cols k (next_generation rows cols b)

/-- The board `main`'s own struct designates after the rounds of `sched`
(`none` when `main` did not create its threads). -/
def driver_board (s : Startup) (sched : List (List Nat)) : Option (List Int) :=
  match s with
  | .started m data targs => some (current_board (play_gol m targs sched).1 data)
  | _ => none

/-- The boards the threads designate as current after the rounds of `sched`. -/
def worker_boards (s : Startup) (sched : List (List Nat)) : Option (List (List Int)) :=
  match s with
  | .started m _ targs =>
    some ((play_gol m targs sched).2.map fun d => current_board (play_gol m targs sched).1 d)
  | _ => none

/-- A 3 x 3 seed with the centre cell alive, one round. -/
def single_seed : SeedFile :=
  ⟨3, 3, 1, 1, [(1, 1)]⟩

/-- A command line for `single_seed`: ASCII output, one thread, row-wise. -/
def single_args : Args :=
  ⟨some single_seed, 1, 1, 0, 0⟩

/-! # Lemmas -/

/-! ## Partition: arithmetic of the closed form -/

theorem partition_branch_eq (data : gol_data) (dim : Int) (hT : data.threads ≠ 0) :
    partition_branch data dim =
      some { data with start := range_start dim data.threads data.ntids,
                       end_ := range_end dim data.threads data.ntids } := by
  unfold partition_branch range_start range_end
  simp only [hT, if_false]
  split_ifs <;> rfl

theorem partition_eq (data : gol_data) (hm : data.part_mode = 0 ∨ data.part_mode = 1)
    (hT : data.threads ≠ 0) :
    partition data =
      some { data with start := range_start (split_dim data) data.threads data.ntids,
                       end_ := range_end (split_dim data) data.threads data.ntids } := by
  rcases hm with h | h
  · simp [partition, split_dim, h, partition_branch_eq _ _ hT]
  · simp [partition, split_dim, h, partition_branch_eq _ _ hT]

theorem thread_range_eq (data : gol_data) (hm : data.part_mode = 0 ∨ data.part_mode = 1)
    (hT : data.threads ≠ 0) (t : Int) :
    thread_range data t =
      some (range_start (split_dim data) data.threads t,
            range_end (split_dim data) data.threads t) := by
  unfold thread_range
  rw [partition_eq { data with ntids := t } hm hT]
  simp [split_dim]

theorem tdiv_tmod_facts (D T : Int) (hD : 0 ≤ D) (hT : 1 ≤ T) :
    0 ≤ D.tdiv T ∧ 0 ≤ D.tmod T ∧ D.tmod T < T ∧ D.tmod T + T * D.tdiv T = D :=
  ⟨Int.tdiv_nonneg hD (by omega), Int.tmod_nonneg T hD, Int.tmod_lt_of_pos D (by omega),
   Int.tmod_add_tdiv D T⟩

theorem range_start_zero (D T : Int) (hD : 0 ≤ D) (hT : 1 ≤ T) : range_start D T 0 = 0 := by
  obtain ⟨_, hr, _, _⟩ := tdiv_tmod_facts D T hD hT
  unfold range_start
  split_ifs <;> omega

theorem range_start_succ (D T t : Int) : range_start D T (t + 1) = range_end D T t + 1 := by
  unfold range_start range_end
  generalize D.tdiv T = q
  generalize D.tmod T = r
  split_ifs <;> first | omega | ring1 | (have hr : r = t := by omega
                                         subst hr; ring1)

theorem range_len (D T t : Int) :
    range_end D T t - range_start D T t + 1 =
      if t < D.tmod T then D.tdiv T + 1 else D.tdiv T := by
  unfold range_start range_end
  generalize D.tdiv T = q
  generalize D.tmod T = r
  split_ifs <;> omega

theorem range_start_le_succ (D T t : Int) (hD : 0 ≤ D) (hT : 1 ≤ T) :
    range_start D T t ≤ range_start D T (t + 1) := by
  obtain ⟨hq, _, _, _⟩ := tdiv_tmod_facts D T hD hT
  have h1 := range_start_succ D T t
  have h2 := range_len D T t
  split_ifs at h2 <;> omega

theorem range_start_mono (D T : Int) (hD : 0 ≤ D) (hT : 1 ≤ T) (t : Int) (k : Nat) :
    range_start D T t ≤ range_start D T (t + k) := by
  induction k with
  | zero => simp
  | succ n ih =>
    have := range_start_le_succ D T (t + n) hD hT
    have e : t + ((n + 1 : Nat) : Int) = t + n + 1 := by push_cast; ring
    rw [e]
    omega

theorem range_start_mono_le (D T : Int) (hD : 0 ≤ D) (hT : 1 ≤ T) (t u : Int) (h : t ≤ u) :
    range_start D T t ≤ range_start D T u := by
  have := range_start_mono D T hD hT t (u - t).toNat
  have e : t + ((u - t).toNat : Int) = u := by omega
  rwa [e] at this

theorem range_start_top (D T : Int) (hD : 0 ≤ D) (hT : 1 ≤ T) : range_start D T T = D := by
  obtain ⟨_, hr, hlt, hsum⟩ := tdiv_tmod_facts D T hD hT
  unfold range_start
  rw [if_neg (by omega), if_neg (by omega)]
  linarith

theorem range_start_nonneg (D T t : Int) (hD : 0 ≤ D) (hT : 1 ≤ T) (ht : 0 ≤ t) :
    0 ≤ range_start D T t := by
  have := range_start_mono_le D T hD hT 0 t ht
  rw [range_start_zero D T hD hT] at this
  exact this

theorem range_end_lt (D T t : Int) (hD : 0 ≤ D) (hT : 1 ≤ T) (ht : t < T) :
    range_end D T t < D := by
  have h1 := range_start_succ D T t
  have h2 := range_start_mono_le D T hD hT (t + 1) T (by omega)
  rw [range_start_top D T hD hT] at h2
  omega

/-- Ranges of distinct threads are ordered: the lower thread ends before the
higher one starts. -/
theorem range_end_lt_start (D T t u : Int) (hD : 0 ≤ D) (hT : 1 ≤ T) (h : t < u) :
    range_end D T t < range_start D T u := by
  have h1 := range_start_succ D T t
  have h2 := range_start_mono_le D T hD hT (t + 1) u (by omega)
  omega

/-- Every index up to the end of thread `n` lies in the range of a thread `≤ n`. -/
theorem range_cover_upto (D T : Int) (hD : 0 ≤ D) (hT : 1 ≤ T) (n : Nat) (x : Int)
    (hx : 0 ≤ x) (hxe : x ≤ range_end D T n) :
    ∃ t : Int, 0 ≤ t ∧ t ≤ n ∧ range_start D T t ≤ x ∧ x ≤ range_end D T t := by
  induction n with
  | zero =>
    refine ⟨0, le_refl _, by simp, ?_, by simpa using hxe⟩
    rw [range_start_zero D T hD hT]; exact hx
  | succ n ih =>
    by_cases h : x ≤ range_end D T n
    · obtain ⟨t, h0, h1, h2, h3⟩ := ih h
      exact ⟨t, h0, by push_cast; omega, h2, h3⟩
    · have := range_start_succ D T n
      refine ⟨(n : Int) + 1, by omega, by push_cast; omega, by omega, ?_⟩
      simpa using hxe

theorem range_cover (D T : Int) (hD : 0 ≤ D) (hT : 1 ≤ T) (x : Int)
    (hx : 0 ≤ x) (hxD : x < D) :
    ∃ t : Int, 0 ≤ t ∧ t < T ∧ range_start D T t ≤ x ∧ x ≤ range_end D T t := by
  have h1 := range_start_succ D T (T - 1)
  have h2 := range_start_top D T hD hT
  have e : T - 1 + 1 = T := by ring
  rw [e, h2] at h1
  have hn : (((T - 1).toNat : Nat) : Int) = T - 1 := by omega
  obtain ⟨t, h0, hle, hs, he⟩ := range_cover_upto D T hD hT (T - 1).toNat x hx (by rw [hn]; omega)
  exact ⟨t, h0, by omega, hs, he⟩

/-! ## Claims C1 and C2: `partition` -/

/-- C1 (partition completeness).  For a dimension `D ≥ 1` (rows when
`part_mode = 0`, columns when `part_mode = 1`) and `T ≥ 1` threads: every thread
index `0 ≤ t < T` gets a range from `partition`, and that range holds no index
outside `[0, D)`; every index of `[0, D)` lies in the range of exactly one
thread; and when `T > D` the threads `t ≥ D` get an empty range (`end < start`). -/
theorem partition_complete (data : gol_data)
    (hm : data.part_mode = 0 ∨ data.part_mode = 1)
    (hD : 1 ≤ split_dim data) (hT : 1 ≤ data.threads) :
    (∀ t : Int, 0 ≤ t → t < data.threads →
      ∃ s e, thread_range data t = some (s, e) ∧
        ∀ x, s ≤ x → x ≤ e → 0 ≤ x ∧ x < split_dim data) ∧
    (∀ x : Int, 0 ≤ x → x < split_dim data →
      ∃! t : Int, 0 ≤ t ∧ t < data.threads ∧
        ∃ s e, thread_range data t = some (s, e) ∧ s ≤ x ∧ x ≤ e) ∧
    (split_dim data < data.threads →
      ∀ t : Int, split_dim data ≤ t → t < data.threads →
        ∃ s e, thread_range data t = some (s, e) ∧ e < s) := by
  have hT0 : data.threads ≠ 0 := by omega
  have hD0 : 0 ≤ split_dim data := by omega
  refine ⟨?_, ?_, ?_⟩
  · intro t ht0 htT
    refine ⟨_, _, thread_range_eq data hm hT0 t, ?_⟩
    intro x hs he
    have h1 := range_start_nonneg (split_dim data) data.threads t hD0 hT ht0
    have h2 := range_end_lt (split_dim data) data.threads t hD0 hT htT
    omega
  · intro x hx0 hxD
    obtain ⟨t, h0, hlt, hs, he⟩ := range_cover (split_dim data) data.threads hD0 hT x hx0 hxD
    refine ⟨t, ⟨h0, hlt, _, _, thread_range_eq data hm hT0 t, hs, he⟩, ?_⟩
    rintro u ⟨_, _, s, e, hu, hsu, heu⟩
    rw [thread_range_eq data hm hT0 u] at hu
    simp only [Option.some.injEq, Prod.mk.injEq] at hu
    obtain ⟨rfl, rfl⟩ := hu
    rcases lt_trichotomy u t with h | h | h
    · have := range_end_lt_start (split_dim data) data.threads u t hD0 hT h
      omega
    · exact h
    · have := range_end_lt_start (split_dim data) data.threads t u hD0 hT h
      omega
  · intro hlt t hDt htT
    refine ⟨_, _, thread_range_eq data hm hT0 t, ?_⟩
    have hlen := range_len (split_dim data) data.threads t
    have hq : (split_dim data).tdiv data.threads = 0 := by
      rw [Int.tdiv_eq_ediv hD0 (by omega)]
      exact Int.ediv_eq_zero_of_lt hD0 hlt
    have hr : (split_dim data).tmod data.threads = split_dim data := by
      rw [Int.tmod_eq_emod hD0 (by omega)]
      exact Int.emod_eq_of_lt hD0 hlt
    rw [hq, hr, if_neg (by omega)] at hlen
    omega

/-- C2 (partition sizes and order).  For `D ≥ 0`, `T ≥ 1` and `0 ≤ t < T`, with
`base = D / T` and `remainder = D % T`: the range of thread `t` has length
`end - start + 1 = base + 1` when `t < remainder` and `base` otherwise; thread 0
starts at index 0; and the range of thread `t + 1` starts at `end_t + 1`. -/
theorem partition_sizes_and_order (data : gol_data)
    (hm : data.part_mode = 0 ∨ data.part_mode = 1)
    (hD : 0 ≤ split_dim data) (hT : 1 ≤ data.threads)
    (t : Int) (ht0 : 0 ≤ t) (htT : t < data.threads) :
    ∃ s e, thread_range data t = some (s, e) ∧
      e - s + 1 = (if t < split_dim data % data.threads
                   then split_dim data / data.threads + 1
                   else split_dim data / data.threads) ∧
      (t = 0 → s = 0) ∧
      ∃ s' e', thread_range data (t + 1) = some (s', e') ∧ s' = e + 1 := by
  have hT0 : data.threads ≠ 0 := by omega
  refine ⟨_, _, thread_range_eq data hm hT0 t, ?_, ?_, _, _,
    thread_range_eq data hm hT0 (t + 1), range_start_succ _ _ t⟩
  · rw [range_len, Int.tdiv_eq_ediv hD (by omega), Int.tmod_eq_emod hD (by omega)]
  · rintro rfl
    exact range_start_zero _ _ hD hT

/-- Witness for C2: 10 rows, 3 threads, thread 1. -/
theorem partition_sizes_and_order_witness :
    ∃ s e, thread_range ⟨0, 10, 10, 4, 0, .fst, .snd, 3, 0, 0, 0, 0, 0⟩ 1 = some (s, e) ∧
      e - s + 1 = (if (1 : Int) < split_dim ⟨0, 10, 10, 4, 0, .fst, .snd, 3, 0, 0, 0, 0, 0⟩ % 3
                   then split_dim ⟨0, 10, 10, 4, 0, .fst, .snd, 3, 0, 0, 0, 0, 0⟩ / 3 + 1
                   else split_dim ⟨0, 10, 10, 4, 0, .fst, .snd, 3, 0, 0, 0, 0, 0⟩ / 3) ∧
      ((1 : Int) = 0 → s = 0) ∧
      ∃ s' e', thread_range ⟨0, 10, 10, 4, 0, .fst, .snd, 3, 0, 0, 0, 0, 0⟩ (1 + 1) = some (s', e') ∧
        s' = e + 1 :=
  partition_sizes_and_order ⟨0, 10, 10, 4, 0, .fst, .snd, 3, 0, 0, 0, 0, 0⟩
    (Or.inl rfl) (by decide) (by decide) 1 (by decide) (by decide)

/-- Witness for C1: 3 columns split among 5 threads. -/
theorem partition_complete_witness :
    (∀ t : Int, 0 ≤ t → t < 5 →
      ∃ s e, thread_range ⟨0, 4, 3, 4, 0, .fst, .snd, 5, 0, 1, 0, 0, 0⟩ t = some (s, e) ∧
        ∀ x, s ≤ x → x ≤ e → 0 ≤ x ∧ x < 3) ∧
    (∀ x : Int, 0 ≤ x → x < 3 →
      ∃! t : Int, 0 ≤ t ∧ t < 5 ∧
        ∃ s e, thread_range ⟨0, 4, 3, 4, 0, .fst, .snd, 5, 0, 1, 0, 0, 0⟩ t = some (s, e) ∧
          s ≤ x ∧ x ≤ e) ∧
    ((3 : Int) < 5 →
      ∀ t : Int, 3 ≤ t → t < 5 →
        ∃ s e, thread_range ⟨0, 4, 3, 4, 0, .fst, .snd, 5, 0, 1, 0, 0, 0⟩ t = some (s, e) ∧ e < s) :=
  partition_complete ⟨0, 4, 3, 4, 0, .fst, .snd, 5, 0, 1, 0, 0, 0⟩
    (Or.inr rfl) (by decide) (by decide)

/-! ## `count_neighbors` -/

theorem tmod_wrap (x n : Int) (hn : 1 ≤ n) (hx : -1 ≤ x) :
    (x + n).tmod n = x % n := by
  rw [Int.tmod_eq_emod (by omega) (by omega), Int.add_emod_self]

theorem cell_index_bound (rows cols a b : Int) (ha0 : 0 ≤ a) (ha : a < rows)
    (hb0 : 0 ≤ b) (hb : b < cols) :
    0 ≤ a * cols + b ∧ a * cols + b < rows * cols := by
  constructor
  · have : 0 ≤ a * cols := mul_nonneg ha0 (by omega)
    omega
  · have : (a + 1) * cols ≤ rows * cols := mul_le_mul_of_nonneg_right (by omega) (by omega)
    have e : (a + 1) * cols = a * cols + cols := by ring
    omega

theorem load_binary (b : List Int) (hb : binary_board b) (k : Int) :
    load b k = 0 ∨ load b k = 1 := by
  unfold load
  split_ifs with h
  · by_cases hk : k.toNat < b.length
    · rw [List.getD_eq_getElem _ _ hk]
      exact hb _ (List.getElem_mem hk)
    · rw [List.getD_eq_default _ _ (by omega)]
      exact Or.inl rfl
  · exact Or.inl rfl

theorem sum_binary_bounds (l : List Int) (h : ∀ x ∈ l, x = 0 ∨ x = 1) :
    0 ≤ l.sum ∧ l.sum ≤ l.length := by
  induction l with
  | nil => simp
  | cons a l ih =>
    have ha := h a (List.mem_cons_self a l)
    have := ih fun x hx => h x (List.mem_cons_of_mem a hx)
    simp only [List.sum_cons, List.length_cons]
    push_cast
    rcases ha with ha | ha <;> omega

theorem sum_binary_ge_of_mem (l : List Int) (h : ∀ x ∈ l, x = 0 ∨ x = 1) (hm : (1 : Int) ∈ l) :
    1 ≤ l.sum := by
  induction l with
  | nil => simp at hm
  | cons a l ih =>
    have hl : ∀ x ∈ l, x = 0 ∨ x = 1 := fun x hx => h x (List.mem_cons_of_mem a hx)
    have hb := (sum_binary_bounds l hl).1
    have ha := h a (List.mem_cons_self a l)
    simp only [List.sum_cons]
    rcases List.mem_cons.1 hm with rfl | hm'
    · omega
    · have := ih hl hm'
      rcases ha with ha | ha <;> omega

theorem count_neighbors_eq_toroidal (m : Mem) (data : gol_data) (i j : Int)
    (hr : 1 ≤ data.rows) (hc : 1 ≤ data.cols) (hi0 : 0 ≤ i) (hj0 : 0 ≤ j) :
    count_neighbors m data i j =
      toroidal_count (m.get data.gol_board) data.rows data.cols i j := by
  have e1 : i - 1 = i + -1 := by ring
  have e2 : j - 1 = j + -1 := by ring
  simp only [count_neighbors, count_neighbors_reads, toroidal_count, neighbor_offsets,
    List.map_cons, List.map_nil, add_zero]
  rw [tmod_wrap (i - 1) _ hr (by omega), tmod_wrap i _ hr (by omega),
    tmod_wrap (i + 1) _ hr (by omega), tmod_wrap (j - 1) _ hc (by omega),
    tmod_wrap j _ hc (by omega), tmod_wrap (j + 1) _ hc (by omega), e1, e2]

theorem count_neighbors_reads_bound (data : gol_data) (i j : Int)
    (hr : 1 ≤ data.rows) (hc : 1 ≤ data.cols) (hi0 : 0 ≤ i) (hj0 : 0 ≤ j) :
    ∀ k ∈ count_neighbors_reads data i j, 0 ≤ k ∧ k < data.rows * data.cols := by
  have hR : ∀ x : Int, -1 ≤ x → 0 ≤ (x + data.rows).tmod data.rows ∧
      (x + data.rows).tmod data.rows < data.rows := fun x hx =>
    ⟨Int.tmod_nonneg _ (by omega), Int.tmod_lt_of_pos _ (by omega)⟩
  have hC : ∀ x : Int, -1 ≤ x → 0 ≤ (x + data.cols).tmod data.cols ∧
      (x + data.cols).tmod data.cols < data.cols := fun x hx =>
    ⟨Int.tmod_nonneg _ (by omega), Int.tmod_lt_of_pos _ (by omega)⟩
  have a1 := hR (i - 1) (by omega)
  have a2 := hR i (by omega)
  have a3 := hR (i + 1) (by omega)
  have b1 := hC (j - 1) (by omega)
  have b2 := hC j (by omega)
  have b3 := hC (j + 1) (by omega)
  intro k hk
  simp only [count_neighbors_reads, List.mem_cons, List.mem_singleton, List.not_mem_nil,
    or_false] at hk
  rcases hk with rfl | rfl | rfl | rfl | rfl | rfl | rfl | rfl <;>
    apply cell_index_bound <;> omega

theorem count_neighbors_bounds (m : Mem) (data : gol_data) (i j : Int)
    (hb : binary_board (m.get data.gol_board)) :
    0 ≤ count_neighbors m data i j ∧ count_neighbors m data i j ≤ 8 := by
  have h := sum_binary_bounds ((count_neighbors_reads data i j).map (load (m.get data.gol_board)))
    (by
      intro x hx
      obtain ⟨k, _, rfl⟩ := List.mem_map.1 hx
      exact load_binary _ hb k)
  simpa [count_neighbors, count_neighbors_reads] using h

/-- C4 (toroidal neighbour count).  For `rows, cols ≥ 1` and a cell `(i, j)` of
the grid: `count_neighbors` is the sum of the board over the eight offsets with
row and column taken modulo `rows` and `cols`; every index it reads lies in
`[0, rows*cols)`; on a board of zeros and ones the result is in `[0, 8]`; the
cell `(0,0)` is among the cells read for `(rows-1, cols-1)` and the cell
`(rows-1, cols-1)` among those read for `(0,0)`, so a live one is counted. -/
theorem count_neighbors_toroidal (m : Mem) (data : gol_data) (i j : Int)
    (hr : 1 ≤ data.rows) (hc : 1 ≤ data.cols)
    (hi0 : 0 ≤ i) (hi : i < data.rows) (hj0 : 0 ≤ j) (hj : j < data.cols) :
    count_neighbors m data i j =
        toroidal_count (m.get data.gol_board) data.rows data.cols i j ∧
    (∀ k ∈ count_neighbors_reads data i j, 0 ≤ k ∧ k < data.rows * data.cols) ∧
    (binary_board (m.get data.gol_board) →
      0 ≤ count_neighbors m data i j ∧ count_neighbors m data i j ≤ 8) ∧
    (0 * data.cols + 0 ∈ count_neighbors_reads data (data.rows - 1) (data.cols - 1)) ∧
    ((data.rows - 1) * data.cols + (data.cols - 1) ∈ count_neighbors_reads data 0 0) ∧
    (binary_board (m.get data.gol_board) →
      (load (m.get data.gol_board) (0 * data.cols + 0) = 1 →
        1 ≤ count_neighbors m data (data.rows - 1) (data.cols - 1)) ∧
      (load (m.get data.gol_board) ((data.rows - 1) * data.cols + (data.cols - 1)) = 1 →
        1 ≤ count_neighbors m data 0 0)) := by
  have hlastR : (data.rows - 1 + 1 + data.rows).tmod data.rows = 0 := by
    rw [tmod_wrap _ _ hr (by omega)]
    have : data.rows - 1 + 1 = data.rows := by ring
    rw [this, Int.emod_self]
  have hlastC : (data.cols - 1 + 1 + data.cols).tmod data.cols = 0 := by
    rw [tmod_wrap _ _ hc (by omega)]
    have : data.cols - 1 + 1 = data.cols := by ring
    rw [this, Int.emod_self]
  have hfirstR : (0 - 1 + data.rows).tmod data.rows = data.rows - 1 := by
    rw [tmod_wrap _ _ hr (by omega)]
    have : (0 - 1 : Int) = (data.rows - 1) + (-1) * data.rows := by ring
    rw [this, Int.add_mul_emod_self]
    exact Int.emod_eq_of_lt (by omega) (by omega)
  have hfirstC : (0 - 1 + data.cols).tmod data.cols = data.cols - 1 := by
    rw [tmod_wrap _ _ hc (by omega)]
    have : (0 - 1 : Int) = (data.cols - 1) + (-1) * data.cols := by ring
    rw [this, Int.add_mul_emod_self]
    exact Int.emod_eq_of_lt (by omega) (by omega)
  have hm1 : 0 * data.cols + 0 ∈ count_neighbors_reads data (data.rows - 1) (data.cols - 1) := by
    simp only [count_neighbors_reads, hlastR, hlastC]
    simp
  have hm2 : (data.rows - 1) * data.cols + (data.cols - 1) ∈ count_neighbors_reads data 0 0 := by
    simp only [count_neighbors_reads, hfirstR, hfirstC]
    simp
  refine ⟨count_neighbors_eq_toroidal m data i j hr hc hi0 hj0,
    count_neighbors_reads_bound data i j hr hc hi0 hj0,
    count_neighbors_bounds m data i j, hm1, hm2, ?_⟩
  intro hb
  have hall : ∀ a b, ∀ x ∈ (count_neighbors_reads data a b).map (load (m.get data.gol_board)),
      x = 0 ∨ x = 1 := by
    intro a b x hx
    obtain ⟨k, _, rfl⟩ := List.mem_map.1 hx
    exact load_binary _ hb k
  constructor
  · intro h1
    exact sum_binary_ge_of_mem _ (hall _ _) (List.mem_map.2 ⟨_, hm1, h1⟩)
  · intro h1
    exact sum_binary_ge_of_mem _ (hall _ _) (List.mem_map.2 ⟨_, hm2, h1⟩)

/-! ## Memory and loops -/

theorem Mem.get_set_same (m : Mem) (p : BufId) (b : List Int) : (m.set p b).get p = b := by
  cases p <;> rfl

theorem Mem.get_set_other (m : Mem) (p q : BufId) (b : List Int) (h : q ≠ p) :
    (m.set p b).get q = m.get q := by
  cases p <;> cases q <;> first | rfl | exact absurd rfl h

theorem Mem.set_set (m : Mem) (p : BufId) (b c : List Int) : (m.set p b).set p c = m.set p c := by
  cases p <;> rfl

theorem Mem.set_get (m : Mem) (p : BufId) : m.set p (m.get p) = m := by
  cases p <;> rfl

theorem Mem.total_live_set (m : Mem) (p : BufId) (b : List Int) :
    (m.set p b).total_live = m.total_live := by
  cases p <;> rfl

theorem mem_int_range (lo hi x : Int) : x ∈ int_range lo hi ↔ lo ≤ x ∧ x ≤ hi := by
  unfold int_range
  simp only [List.mem_map, List.mem_range]
  constructor
  · rintro ⟨n, hn, rfl⟩
    omega
  · rintro ⟨h1, h2⟩
    exact ⟨(x - lo).toNat, by omega, by omega⟩

theorem int_range_empty (lo hi : Int) (h : hi < lo) : int_range lo hi = [] := by
  unfold int_range
  have : (hi + 1 - lo).toNat = 0 := by omega
  rw [this]
  rfl

theorem int_range_append (lo mid hi : Int) (h1 : lo ≤ mid + 1) (h2 : mid ≤ hi) :
    int_range lo hi = int_range lo mid ++ int_range (mid + 1) hi := by
  unfold int_range
  have e : (hi + 1 - lo).toNat = (mid + 1 - lo).toNat + (hi + 1 - (mid + 1)).toNat := by omega
  rw [e, List.range_add, List.map_append, List.map_map]
  congr 1
  apply List.map_congr_left
  intro n _
  simp only [Function.comp]
  push_cast
  omega

theorem length_store (b : List Int) (k v : Int) : (store b k v).length = b.length := by
  unfold store
  split_ifs <;> simp

theorem load_store_same (b : List Int) (k v : Int) (h0 : 0 ≤ k) (h : k < b.length) :
    load (store b k v) k = v := by
  unfold load store
  rw [if_pos h0, if_pos h0, List.getD_eq_getElem _ _ (by rw [List.length_set]; omega)]
  simp

theorem load_store_other (b : List Int) (k k0 v : Int) (h0 : 0 ≤ k0) (h : k ≠ k0) :
    load (store b k v) k0 = load b k0 := by
  unfold load store
  rw [if_pos h0]
  split_ifs with hk
  · have hne : k.toNat ≠ k0.toNat := by omega
    simp [List.getElem?_set_ne hne]
  · rfl

theorem load_eq_getD (b : List Int) (k : Nat) : load b (k : Int) = b.getD k 0 := by
  unfold load
  simp

/-- Two boards of the same length with the same reads are equal. -/
theorem board_ext (a b : List Int) (hl : a.length = b.length)
    (h : ∀ k : Nat, k < a.length → load a k = load b k) : a = b := by
  apply List.ext_getElem hl
  intro n h1 h2
  have := h n h1
  rw [load_eq_getD, load_eq_getD, List.getD_eq_getElem _ _ h1, List.getD_eq_getElem _ _ h2] at this
  exact this

/-! ## `play_round` as a function of the next board -/

theorem play_cell_with_next (data : gol_data) (h : data.gol_board ≠ data.next_board)
    (m : Mem) (p : List Int × Int) (i j : Int) :
    play_cell data (with_next m data p) i j =
      with_next m data (cell_step (m.get data.gol_board) data p i j) := by
  simp only [play_cell, with_next, cell_step, write_at, delta_at, cell_write, cell_delta,
    count_neighbors, neighbors_of, Mem.get_set_other _ _ _ _ h, Mem.get_set_same, Mem.set_set]
  split_ifs <;> simp [sub_eq_add_neg]

theorem fold_cols_with_next (data : gol_data) (h : data.gol_board ≠ data.next_board)
    (m : Mem) (i : Int) (js : List Int) (p : List Int × Int) :
    js.foldl (fun s j => play_cell data s i j) (with_next m data p) =
      with_next m data (js.foldl (fun p j => cell_step (m.get data.gol_board) data p i j) p) := by
  induction js generalizing p with
  | nil => rfl
  | cons j js ih => simp only [List.foldl_cons, play_cell_with_next data h, ih]

theorem fold_rows_with_next (data : gol_data) (h : data.gol_board ≠ data.next_board)
    (m : Mem) (is js : List Int) (p : List Int × Int) :
    is.foldl (fun s i => js.foldl (fun s j => play_cell data s i j) s) (with_next m data p) =
      with_next m data (grid_step (m.get data.gol_board) data is js p) := by
  unfold grid_step
  induction is generalizing p with
  | nil => rfl
  | cons i is ih => simp only [List.foldl_cons, fold_cols_with_next data h, ih]

theorem play_round_eq (m : Mem) (data : gol_data) (h : data.gol_board ≠ data.next_board) :
    play_round m data =
      { m.set data.next_board
          (grid_step (m.get data.gol_board) data (visit_rows data) (visit_cols data)
            (m.get data.next_board, 0)).1 with
        total_live := m.total_live +
          (grid_step (m.get data.gol_board) data (visit_rows data) (visit_cols data)
            (m.get data.next_board, 0)).2 } := by
  have h0 : ((m, 0) : Mem × Int) = with_next m data (m.get data.next_board, 0) := by
    simp [with_next, Mem.set_get]
  unfold play_round visit_rows visit_cols
  by_cases h1 : data.part_mode = 0
  · have h2 : ¬ data.part_mode = 1 := by omega
    simp only [h1, h2, if_true, if_false, play_rows, h0, fold_rows_with_next data h]
    simp [with_next, Mem.total_live_set]
  · by_cases h2 : data.part_mode = 1
    · simp only [if_neg h1, if_pos h2, play_cols, h0, fold_rows_with_next data h]
      simp [with_next, Mem.total_live_set]
    · simp only [if_neg h1, if_neg h2, grid_step, List.foldl_nil, Mem.set_get]

/-! ## The effect of the loops on the next board -/

theorem cell_step_snd (cur : List Int) (data : gol_data) (p : List Int × Int) (i j : Int) :
    (cell_step cur data p i j).2 = p.2 + delta_at cur data i j := rfl

theorem cell_step_length (cur : List Int) (data : gol_data) (p : List Int × Int) (i j : Int) :
    (cell_step cur data p i j).1.length = p.1.length := by
  unfold cell_step
  cases write_at cur data i j <;> simp [length_store]

theorem fold_cols_snd (cur : List Int) (data : gol_data) (i : Int) (js : List Int)
    (p : List Int × Int) :
    (js.foldl (fun p j => cell_step cur data p i j) p).2 =
      p.2 + (js.map fun j => delta_at cur data i j).sum := by
  induction js generalizing p with
  | nil => simp
  | cons j js ih =>
    simp only [List.foldl_cons, ih, cell_step_snd, List.map_cons, List.sum_cons]
    ring

theorem fold_cols_length (cur : List Int) (data : gol_data) (i : Int) (js : List Int)
    (p : List Int × Int) :
    (js.foldl (fun p j => cell_step cur data p i j) p).1.length = p.1.length := by
  induction js generalizing p with
  | nil => rfl
  | cons j js ih => simp only [List.foldl_cons, ih, cell_step_length]

theorem grid_step_snd (cur : List Int) (data : gol_data) (is js : List Int)
    (p : List Int × Int) :
    (grid_step cur data is js p).2 = p.2 + grid_delta cur data is js := by
  unfold grid_step grid_delta
  induction is generalizing p with
  | nil => simp
  | cons i is ih =>
    simp only [List.foldl_cons, ih, fold_cols_snd, List.map_cons, List.sum_cons]
    ring

theorem grid_step_length (cur : List Int) (data : gol_data) (is js : List Int)
    (p : List Int × Int) :
    (grid_step cur data is js p).1.length = p.1.length := by
  unfold grid_step
  induction is generalizing p with
  | nil => rfl
  | cons i is ih => simp only [List.foldl_cons, ih, fold_cols_length]

theorem upd_upd (w : Option Int) (old : Int) : upd w (upd w old) = upd w old := by
  cases w <;> rfl

/-- Distinct cells of the grid have distinct indices. -/
theorem cell_index_inj (cols i j i0 j0 : Int) (hj0 : 0 ≤ j) (hj : j < cols)
    (hj00 : 0 ≤ j0) (hj0c : j0 < cols) (h : i * cols + j = i0 * cols + j0) :
    i = i0 ∧ j = j0 := by
  have hi : i = i0 := by
    rcases lt_trichotomy i i0 with hlt | heq | hgt
    · have : (i + 1) * cols ≤ i0 * cols := mul_le_mul_of_nonneg_right (by omega) (by omega)
      have e : (i + 1) * cols = i * cols + cols := by ring
      omega
    · exact heq
    · have : (i0 + 1) * cols ≤ i * cols := mul_le_mul_of_nonneg_right (by omega) (by omega)
      have e : (i0 + 1) * cols = i0 * cols + cols := by ring
      omega
  subst hi
  exact ⟨rfl, by omega⟩

/-- One cell step, read at the cell `(i0, j0)` of the grid. -/
theorem cell_step_load (cur : List Int) (data : gol_data) (p : List Int × Int)
    (i j i0 j0 : Int) (hlen : (p.1.length : Int) = data.rows * data.cols)
    (hi0 : 0 ≤ i) (hi : i < data.rows) (hj0 : 0 ≤ j) (hj : j < data.cols)
    (hi00 : 0 ≤ i0) (hj00 : 0 ≤ j0) (hj0c : j0 < data.cols) :
    load (cell_step cur data p i j).1 (i0 * data.cols + j0) =
      if i = i0 ∧ j = j0 then upd (write_at cur data i0 j0) (load p.1 (i0 * data.cols + j0))
      else load p.1 (i0 * data.cols + j0) := by
  have hb := cell_index_bound data.rows data.cols i j hi0 hi hj0 hj
  have hb0 : 0 ≤ i0 * data.cols + j0 := by
    have : 0 ≤ i0 * data.cols := mul_nonneg hi00 (by omega)
    omega
  unfold cell_step
  by_cases hc : i = i0 ∧ j = j0
  · obtain ⟨rfl, rfl⟩ := hc
    simp only [and_self, if_true]
    cases hw : write_at cur data i j with
    | none => rfl
    | some v => simp only [upd, Option.getD_some]; exact load_store_same _ _ _ hb.1 (by omega)
  · rw [if_neg hc]
    cases hw : write_at cur data i j with
    | none => rfl
    | some v =>
      apply load_store_other _ _ _ _ hb0
      intro heq
      exact hc (cell_index_inj data.cols i j i0 j0 hj0 hj hj00 hj0c heq)

theorem fold_cols_load (cur : List Int) (data : gol_data) (i : Int) (js : List Int)
    (p : List Int × Int) (i0 j0 : Int) (hlen : (p.1.length : Int) = data.rows * data.cols)
    (hi0 : 0 ≤ i) (hi : i < data.rows) (hjs : ∀ j ∈ js, 0 ≤ j ∧ j < data.cols)
    (hi00 : 0 ≤ i0) (hj00 : 0 ≤ j0) (hj0c : j0 < data.cols) :
    load (js.foldl (fun p j => cell_step cur data p i j) p).1 (i0 * data.cols + j0) =
      if i = i0 ∧ j0 ∈ js then upd (write_at cur data i0 j0) (load p.1 (i0 * data.cols + j0))
      else load p.1 (i0 * data.cols + j0) := by
  induction js generalizing p with
  | nil => simp
  | cons j js ih =>
    have hj := hjs j (List.mem_cons_self j js)
    rw [List.foldl_cons, ih _ (by rw [cell_step_length]; exact hlen)
      (fun x hx => hjs x (List.mem_cons_of_mem j hx)),
      cell_step_load cur data p i j i0 j0 hlen hi0 hi hj.1 hj.2 hi00 hj00 hj0c]
    by_cases h2 : j = j0
    · subst h2
      by_cases h1 : i = i0 <;> by_cases h3 : j ∈ js <;> simp [h1, h3, upd_upd]
    · have h2' : ¬ j0 = j := fun h => h2 h.symm
      by_cases h1 : i = i0 <;> by_cases h3 : j0 ∈ js <;> simp [h1, h2, h2', h3]

theorem grid_step_load (cur : List Int) (data : gol_data) (is js : List Int)
    (p : List Int × Int) (i0 j0 : Int) (hlen : (p.1.length : Int) = data.rows * data.cols)
    (his : ∀ i ∈ is, 0 ≤ i ∧ i < data.rows) (hjs : ∀ j ∈ js, 0 ≤ j ∧ j < data.cols)
    (hi00 : 0 ≤ i0) (hj00 : 0 ≤ j0) (hj0c : j0 < data.cols) :
    load (grid_step cur data is js p).1 (i0 * data.cols + j0) =
      if i0 ∈ is ∧ j0 ∈ js then upd (write_at cur data i0 j0) (load p.1 (i0 * data.cols + j0))
      else load p.1 (i0 * data.cols + j0) := by
  unfold grid_step
  induction is generalizing p with
  | nil => simp
  | cons i is ih =>
    have hi := his i (List.mem_cons_self i is)
    rw [List.foldl_cons, ih _ (by rw [fold_cols_length]; exact hlen)
      (fun x hx => his x (List.mem_cons_of_mem i hx)),
      fold_cols_load cur data i js p i0 j0 hlen hi.1 hi.2 hjs hi00 hj00 hj0c]
    by_cases h1 : i = i0
    · subst h1
      by_cases h2 : i ∈ is <;> by_cases h3 : j0 ∈ js <;> simp [h2, h3, upd_upd]
    · have h1' : ¬ i0 = i := fun h => h1 h.symm
      by_cases h2 : i0 ∈ is <;> by_cases h3 : j0 ∈ js <;> simp [h1, h1', h2, h3]

/-! ## One call of `play_round` -/

theorem visit_rows_bound (d : gol_data) (h : range_in_grid d) :
    ∀ i ∈ visit_rows d, 0 ≤ i ∧ i < d.rows := by
  intro i hi
  unfold visit_rows at hi
  unfold range_in_grid split_dim at h
  split_ifs at hi h with h0 h1
  · rw [mem_int_range] at hi; omega
  · rw [mem_int_range] at hi; omega
  · simp at hi

theorem visit_cols_bound (d : gol_data) (h : range_in_grid d) :
    ∀ j ∈ visit_cols d, 0 ≤ j ∧ j < d.cols := by
  intro j hj
  unfold visit_cols at hj
  unfold range_in_grid split_dim at h
  split_ifs at hj h with h0 h1
  · rw [mem_int_range] at hj; omega
  · rw [mem_int_range] at hj; omega
  · simp at hj

theorem mem_visit_iff (d : gol_data) (i j : Int) :
    (i ∈ visit_rows d ∧ j ∈ visit_cols d) ↔ in_partition d i j := by
  unfold visit_rows visit_cols in_partition
  by_cases h0 : d.part_mode = 0
  · have h1 : ¬ d.part_mode = 1 := by omega
    simp only [h0, h1, if_true, mem_int_range, true_and, false_and, or_false]
    constructor <;> intro h <;> omega
  · by_cases h1 : d.part_mode = 1
    · simp only [if_neg h0, if_pos h1, mem_int_range]
      constructor <;> intro h <;> omega
    · simp [h0, h1]

theorem play_round_get_gol (m : Mem) (d : gol_data) (hp : d.gol_board ≠ d.next_board) :
    (play_round m d).get d.gol_board = m.get d.gol_board := by
  rw [play_round_eq m d hp]
  generalize (grid_step _ _ _ _ _) = r
  cases hg : d.gol_board <;> cases hn : d.next_board <;> simp_all [Mem.get, Mem.set]

theorem play_round_get_next (m : Mem) (d : gol_data) (hp : d.gol_board ≠ d.next_board) :
    (play_round m d).get d.next_board =
      (grid_step (m.get d.gol_board) d (visit_rows d) (visit_cols d)
        (m.get d.next_board, 0)).1 := by
  rw [play_round_eq m d hp]
  generalize (grid_step _ _ _ _ _) = r
  cases hn : d.next_board <;> simp [Mem.get, Mem.set]

theorem play_round_total_live (m : Mem) (d : gol_data) (hp : d.gol_board ≠ d.next_board) :
    (play_round m d).total_live =
      m.total_live + grid_delta (m.get d.gol_board) d (visit_rows d) (visit_cols d) := by
  rw [play_round_eq m d hp, grid_step_snd]
  simp

theorem play_round_length (m : Mem) (d : gol_data) (hp : d.gol_board ≠ d.next_board) :
    ((play_round m d).get d.next_board).length = (m.get d.next_board).length := by
  rw [play_round_get_next m d hp, grid_step_length]

theorem play_round_load (m : Mem) (d : gol_data) (hp : d.gol_board ≠ d.next_board)
    (hlen : ((m.get d.next_board).length : Int) = d.rows * d.cols)
    (hr : range_in_grid d) (i0 j0 : Int) (hi00 : 0 ≤ i0) (hj00 : 0 ≤ j0) (hj0c : j0 < d.cols) :
    load ((play_round m d).get d.next_board) (i0 * d.cols + j0) =
      if in_partition d i0 j0 then
        upd (write_at (m.get d.gol_board) d i0 j0) (load (m.get d.next_board) (i0 * d.cols + j0))
      else load (m.get d.next_board) (i0 * d.cols + j0) := by
  rw [play_round_get_next m d hp,
    grid_step_load _ d _ _ _ i0 j0 hlen (visit_rows_bound d hr) (visit_cols_bound d hr)
      hi00 hj00 hj0c]
  simp only [mem_visit_iff]

/-- C3 (rule B3/S23).  On a board of zeros and ones, for a thread whose range
lies in the grid and a cell `(i, j)` of its partition, after `play_round` the
cell of `next_board` is `1` exactly when the cell of `gol_board` is `1` with two
or three neighbours or `0` with three neighbours, and is `0` otherwise; in the
row-wise and in the column-wise branch alike. -/
theorem play_round_rule (m : Mem) (data : gol_data) (i j : Int)
    (hp : data.gol_board ≠ data.next_board)
    (hcur : ((m.get data.gol_board).length : Int) = data.rows * data.cols)
    (hnext : ((m.get data.next_board).length : Int) = data.rows * data.cols)
    (hbin : binary_board (m.get data.gol_board))
    (hr : range_in_grid data)
    (hcell : in_partition data i j) :
    (load ((play_round m data).get data.next_board) (i * data.cols + j) = 1 ↔
      (load (m.get data.gol_board) (i * data.cols + j) = 1 ∧
          (count_neighbors m data i j = 2 ∨ count_neighbors m data i j = 3)) ∨
      (load (m.get data.gol_board) (i * data.cols + j) = 0 ∧
          count_neighbors m data i j = 3)) ∧
    (¬ ((load (m.get data.gol_board) (i * data.cols + j) = 1 ∧
          (count_neighbors m data i j = 2 ∨ count_neighbors m data i j = 3)) ∨
        (load (m.get data.gol_board) (i * data.cols + j) = 0 ∧
          count_neighbors m data i j = 3)) →
      load ((play_round m data).get data.next_board) (i * data.cols + j) = 0) := by
  have hb : 0 ≤ i ∧ 0 ≤ j ∧ j < data.cols := by
    unfold in_partition at hcell
    unfold range_in_grid split_dim at hr
    rcases hcell with ⟨h0, h⟩ | ⟨h1, h⟩
    · rw [if_pos h0] at hr; omega
    · have h0 : ¬ data.part_mode = 0 := by omega
      rw [if_neg h0] at hr; omega
  rw [play_round_load m data hp hnext hr i j hb.1 hb.2.1 hb.2.2, if_pos hcell]
  have hn : count_neighbors m data i j = neighbors_of (m.get data.gol_board) data i j := rfl
  rw [hn]
  unfold write_at cell_write upd
  rcases load_binary _ hbin (i * data.cols + j) with hc | hc <;> rw [hc] <;>
    by_cases h2 : neighbors_of (m.get data.gol_board) data i j = 2 <;>
    by_cases h3 : neighbors_of (m.get data.gol_board) data i j = 3 <;>
    simp [h2, h3]

/-! ## All threads of a round -/

theorem Mem.ext_of_ptrs (a b : Mem) (p q : BufId) (h : p ≠ q) (h1 : a.get p = b.get p)
    (h2 : a.get q = b.get q) (h3 : a.total_live = b.total_live) : a = b := by
  cases a; cases b
  cases p <;> cases q <;> simp_all [Mem.get]

theorem thread_of_range_in_grid (data : gol_data) (hD : 0 ≤ split_dim data)
    (hT : 1 ≤ data.threads) (t : Int) (ht0 : 0 ≤ t) (ht : t < data.threads) :
    range_in_grid (thread_of data t) :=
  ⟨range_start_nonneg _ _ t hD hT ht0, range_end_lt _ _ t hD hT ht⟩

theorem threads_fold (data : gol_data) (hp : data.gol_board ≠ data.next_board)
    (hD : 0 ≤ split_dim data) (hT : 1 ≤ data.threads)
    (order : List Nat) (hord : ∀ t ∈ order, (t : Int) < data.threads) (m : Mem)
    (hlen : ((m.get data.next_board).length : Int) = data.rows * data.cols) :
    (order.foldl (fun m (t : Nat) => play_round m (thread_of data (t : Int))) m).get data.gol_board =
        m.get data.gol_board ∧
    ((order.foldl (fun m (t : Nat) => play_round m (thread_of data (t : Int))) m).get
        data.next_board).length = (m.get data.next_board).length ∧
    (order.foldl (fun m (t : Nat) => play_round m (thread_of data (t : Int))) m).total_live =
        m.total_live + (order.map fun (t : Nat) => grid_delta (m.get data.gol_board) data
          (visit_rows (thread_of data (t : Int))) (visit_cols (thread_of data (t : Int)))).sum ∧
    ∀ i0 j0 : Int, 0 ≤ i0 → 0 ≤ j0 → j0 < data.cols →
      load ((order.foldl (fun m (t : Nat) => play_round m (thread_of data (t : Int))) m).get
          data.next_board) (i0 * data.cols + j0) =
        if ∃ t ∈ order, in_partition (thread_of data (t : Int)) i0 j0 then
          upd (write_at (m.get data.gol_board) data i0 j0)
            (load (m.get data.next_board) (i0 * data.cols + j0))
        else load (m.get data.next_board) (i0 * data.cols + j0) := by
  induction order generalizing m with
  | nil => simp
  | cons t order ih =>
    have ht := hord t (List.mem_cons_self t order)
    have hpt : (thread_of data (t : Int)).gol_board ≠ (thread_of data (t : Int)).next_board := hp
    have hg : (play_round m (thread_of data (t : Int))).get data.gol_board =
        m.get data.gol_board := play_round_get_gol m _ hpt
    have hl : ((play_round m (thread_of data (t : Int))).get data.next_board).length =
        (m.get data.next_board).length := play_round_length m _ hpt
    have htl := play_round_total_live m _ hpt
    have hld := play_round_load m (thread_of data (t : Int)) hpt hlen
      (thread_of_range_in_grid data hD hT t (by omega) ht)
    obtain ⟨a1, a2, a3, a4⟩ := ih (fun x hx => hord x (List.mem_cons_of_mem t hx))
      (play_round m (thread_of data (t : Int))) (by rw [hl]; exact hlen)
    simp only [List.foldl_cons]
    refine ⟨by rw [a1, hg], by rw [a2, hl], ?_, ?_⟩
    · rw [a3, htl, hg, List.map_cons, List.sum_cons]
      have e : grid_delta ((m.get (thread_of data (t : Int)).gol_board)) (thread_of data (t : Int))
          (visit_rows (thread_of data (t : Int))) (visit_cols (thread_of data (t : Int))) =
          grid_delta (m.get data.gol_board) data
          (visit_rows (thread_of data (t : Int))) (visit_cols (thread_of data (t : Int))) := rfl
      rw [e]
      ring
    · intro i0 j0 hi0 hj0 hjc
      have h1 := hld i0 j0 hi0 hj0 hjc
      have h1' : load ((play_round m (thread_of data (t : Int))).get data.next_board)
          (i0 * data.cols + j0) =
          if in_partition (thread_of data (t : Int)) i0 j0 then
            upd (write_at (m.get data.gol_board) data i0 j0)
              (load (m.get data.next_board) (i0 * data.cols + j0))
          else load (m.get data.next_board) (i0 * data.cols + j0) := h1
      rw [a4 i0 j0 hi0 hj0 hjc, hg, h1']
      by_cases c1 : in_partition (thread_of data (t : Int)) i0 j0 <;>
        by_cases c2 : ∃ u ∈ order, in_partition (thread_of data (u : Int)) i0 j0 <;>
        simp [c1, c2, upd_upd]

theorem sum_ranges_concat (D T : Int) (hD : 0 ≤ D) (hT : 1 ≤ T) (f : Int → Int) (n : Nat) :
    ((List.range n).map fun (t : Nat) =>
        ((int_range (range_start D T t) (range_end D T t)).map f).sum).sum =
      ((int_range 0 (range_start D T n - 1)).map f).sum := by
  induction n with
  | zero =>
    have h0 : range_start D T ((0 : Nat) : Int) = 0 := range_start_zero D T hD hT
    rw [h0, int_range_empty 0 (0 - 1) (by omega)]
    rfl
  | succ n ih =>
    have h1 := range_start_succ D T n
    have h2 := range_start_le_succ D T n hD hT
    have h3 := range_start_nonneg D T n hD hT (by omega)
    have e : (((n + 1 : Nat) : Int)) = (n : Int) + 1 := by push_cast; ring
    have e2 : range_start D T n - 1 + 1 = range_start D T n := by ring
    rw [List.range_succ, List.map_append, List.sum_append, ih, e, h1]
    have e3 : range_end D T n + 1 - 1 = range_end D T n := by ring
    rw [e3, int_range_append 0 (range_start D T n - 1) (range_end D T n) (by omega) (by omega),
      List.map_append, List.sum_append, e2]
    simp

theorem sum_map_swap {α β : Type} (L : List α) (I : List β) (F : α → β → Int) :
    (L.map fun t => (I.map fun i => F t i).sum).sum =
      (I.map fun i => (L.map fun t => F t i).sum).sum := by
  induction L with
  | nil => simp
  | cons a L ih => simp only [List.map_cons, List.sum_cons, ih, List.sum_map_add]

theorem round_delta (cur : List Int) (data : gol_data)
    (hm : data.part_mode = 0 ∨ data.part_mode = 1) (hD : 0 ≤ split_dim data)
    (T : Nat) (hT : 1 ≤ T) (hTd : data.threads = (T : Int)) :
    ((List.range T).map fun (t : Nat) => grid_delta cur data
        (visit_rows (thread_of data (t : Int))) (visit_cols (thread_of data (t : Int)))).sum =
      total_delta cur data := by
  have hT1 : (1 : Int) ≤ data.threads := by omega
  have htop := range_start_top (split_dim data) data.threads hD hT1
  rw [hTd] at htop
  rcases hm with h0 | h1
  · have hsd : split_dim data = data.rows := by simp [split_dim, h0]
    have hv : ∀ t : Nat, visit_rows (thread_of data (t : Int)) =
        int_range (range_start data.rows T t) (range_end data.rows T t) := by
      intro t
      simp [visit_rows, thread_of, h0, hsd, hTd]
    have hc : ∀ t : Nat, visit_cols (thread_of data (t : Int)) = int_range 0 (data.cols - 1) := by
      intro t
      simp [visit_cols, thread_of, h0]
    simp only [hv, hc, grid_delta, total_delta]
    rw [hsd] at htop hD
    rw [sum_ranges_concat data.rows T hD (by omega) _ T, htop]
  · have h0 : ¬ data.part_mode = 0 := by omega
    have hsd : split_dim data = data.cols := by simp [split_dim, h0]
    have hv : ∀ t : Nat, visit_rows (thread_of data (t : Int)) = int_range 0 (data.rows - 1) := by
      intro t
      simp [visit_rows, thread_of, h1]
    have hc : ∀ t : Nat, visit_cols (thread_of data (t : Int)) =
        int_range (range_start data.cols T t) (range_end data.cols T t) := by
      intro t
      simp [visit_cols, thread_of, h1, hsd, hTd]
    simp only [hv, hc, grid_delta, total_delta]
    rw [hsd] at htop hD
    rw [sum_map_swap]
    congr 1
    apply List.map_congr_left
    intro i _
    rw [sum_ranges_concat data.cols T hD (by omega) _ T, htop]

theorem round_cover (data : gol_data) (hm : data.part_mode = 0 ∨ data.part_mode = 1)
    (T : Nat) (hT : 1 ≤ T) (hTd : data.threads = (T : Int))
    (order : List Nat) (hperm : order.Perm (List.range T))
    (i0 j0 : Int) (hi0 : 0 ≤ i0) (hi : i0 < data.rows) (hj0 : 0 ≤ j0) (hj : j0 < data.cols) :
    ∃ t ∈ order, in_partition (thread_of data (t : Int)) i0 j0 := by
  have hT1 : (1 : Int) ≤ data.threads := by omega
  rcases hm with h0 | h1
  · have hsd : split_dim data = data.rows := by simp [split_dim, h0]
    obtain ⟨t, ht0, htT, hs, he⟩ := range_cover data.rows data.threads (by omega) hT1 i0 hi0 hi
    refine ⟨t.toNat, hperm.mem_iff.2 (List.mem_range.2 (by omega)), Or.inl ?_⟩
    have e : ((t.toNat : Nat) : Int) = t := by omega
    rw [e]
    simp only [thread_of, hsd]
    exact ⟨h0, hs, he, hj0, hj⟩
  · have h0 : ¬ data.part_mode = 0 := by omega
    have hsd : split_dim data = data.cols := by simp [split_dim, h0]
    obtain ⟨t, ht0, htT, hs, he⟩ := range_cover data.cols data.threads (by omega) hT1 j0 hj0 hj
    refine ⟨t.toNat, hperm.mem_iff.2 (List.mem_range.2 (by omega)), Or.inr ?_⟩
    have e : ((t.toNat : Nat) : Int) = t := by omega
    rw [e]
    simp only [thread_of, hsd]
    exact ⟨h1, hi0, hi, hs, he⟩

theorem team_of_getElem (data : gol_data) (T t : Nat) (h : t < T) :
    (team_of data T)[t]? = some (thread_of data (t : Int)) := by
  simp [team_of, List.getElem?_range h]

theorem compute_phase_team (m : Mem) (data : gol_data) (hrun : runs_loop data = true)
    (T : Nat) (order : List Nat) (hord : ∀ t ∈ order, t < T) :
    compute_phase m (team_of data T) order =
      order.foldl (fun m (t : Nat) => play_round m (thread_of data (t : Int))) m := by
  unfold compute_phase
  apply List.foldl_ext
  intro a t ht
  have hr : runs_loop (thread_of data (t : Int)) = true := hrun
  simp only [team_of_getElem data T t (hord t ht), hr, if_true]

theorem full_round_get_gol (m : Mem) (data : gol_data) (hp : data.gol_board ≠ data.next_board) :
    (full_round m data).get data.gol_board = m.get data.gol_board := by
  unfold full_round
  generalize next_board_of _ _ _ = r
  cases hg : data.gol_board <;> cases hn : data.next_board <;> simp_all [Mem.get, Mem.set]

theorem full_round_get_next (m : Mem) (data : gol_data) :
    (full_round m data).get data.next_board =
      next_board_of (m.get data.gol_board) (m.get data.next_board) data := by
  unfold full_round
  generalize next_board_of _ _ _ = r
  cases hn : data.next_board <;> simp [Mem.get, Mem.set]

theorem full_round_total_live (m : Mem) (data : gol_data) :
    (full_round m data).total_live =
      m.total_live + total_delta (m.get data.gol_board) data := by
  unfold full_round
  simp

theorem next_board_of_length (cur old : List Int) (data : gol_data) :
    (next_board_of cur old data).length = old.length := by
  simp [next_board_of]

theorem load_next_board_of (cur old : List Int) (data : gol_data) (k : Nat)
    (hk : k < old.length) :
    load (next_board_of cur old data) (k : Int) = next_cell cur old data k := by
  rw [load_eq_getD, List.getD_eq_getElem _ _ (by rw [next_board_of_length]; exact hk)]
  simp [next_board_of]

/-- A cell index of the grid splits into its row and its column. -/
theorem index_split (rows cols : Int) (hc : 1 ≤ cols) (k : Nat) (hk : (k : Int) < rows * cols) :
    0 ≤ (k : Int) / cols ∧ (k : Int) / cols < rows ∧ 0 ≤ (k : Int) % cols ∧
      (k : Int) % cols < cols ∧ (k : Int) / cols * cols + (k : Int) % cols = k := by
  refine ⟨Int.ediv_nonneg (by omega) (by omega), Int.ediv_lt_of_lt_mul (by omega) hk,
    Int.emod_nonneg _ (by omega), Int.emod_lt_of_pos _ (by omega), ?_⟩
  have := Int.ediv_add_emod (k : Int) cols
  rw [mul_comm] at this
  exact this

/-- Whatever the number of threads and the order in which they run, the compute
phase of a round leaves the memory of `full_round`. -/
theorem compute_phase_full (m : Mem) (data : gol_data) (hwf : well_formed m data)
    (hm : data.part_mode = 0 ∨ data.part_mode = 1) (hrun : runs_loop data = true)
    (T : Nat) (hT : 1 ≤ T) (hTd : data.threads = (T : Int))
    (order : List Nat) (hperm : order.Perm (List.range T)) :
    compute_phase m (team_of data T) order = full_round m data := by
  obtain ⟨hp, hcur, hnext, hrows, hcols⟩ := hwf
  have hord : ∀ t ∈ order, t < T := fun t ht => List.mem_range.1 (hperm.mem_iff.1 ht)
  have hD : 0 ≤ split_dim data := by unfold split_dim; split_ifs <;> omega
  rw [compute_phase_team m data hrun T order hord]
  obtain ⟨a1, a2, a3, a4⟩ := threads_fold data hp hD (by omega) order
    (fun t ht => by have := hord t ht; omega) m hnext
  apply Mem.ext_of_ptrs _ _ data.gol_board data.next_board hp
  · rw [a1, full_round_get_gol m data hp]
  · rw [full_round_get_next]
    apply board_ext _ _ (by rw [a2, next_board_of_length])
    intro k hk
    rw [a2] at hk
    have hk' : (k : Int) < data.rows * data.cols := by omega
    obtain ⟨b1, b2, b3, b4, b5⟩ := index_split data.rows data.cols hcols k hk'
    rw [load_next_board_of _ _ _ k hk]
    have h := a4 _ _ b1 b3 b4
    rw [b5, if_pos (round_cover data hm T hT hTd order hperm _ _ b1 b2 b3 b4)] at h
    rw [h, load_eq_getD]
    rfl
  · rw [a3, full_round_total_live, ← round_delta (m.get data.gol_board) data hm hD T hT hTd]
    congr 1
    exact (hperm.map _).sum_eq

theorem well_formed_full_round (m : Mem) (data : gol_data) (hwf : well_formed m data) :
    well_formed (full_round m data) (swap_boards data) := by
  obtain ⟨hp, hcur, hnext, hrows, hcols⟩ := hwf
  refine ⟨fun h => hp h.symm, ?_, ?_, hrows, hcols⟩
  · show (((full_round m data).get data.next_board).length : Int) = data.rows * data.cols
    rw [full_round_get_next, next_board_of_length]
    exact hnext
  · show (((full_round m data).get data.gol_board).length : Int) = data.rows * data.cols
    rw [full_round_get_gol m data hp]
    exact hcur

theorem team_of_swap (data : gol_data) (hrun : runs_loop data = true) (T : Nat) :
    ((team_of data T).map fun d => if runs_loop d then swap_boards d else d) =
      team_of (swap_boards data) T := by
  unfold team_of
  rw [List.map_map]
  apply List.map_congr_left
  intro t _
  have hr : runs_loop (thread_of data (t : Int)) = true := hrun
  simp only [Function.comp, hr, if_true]
  rfl

theorem main_targs_eq (data : gol_data) (hm : data.part_mode = 0 ∨ data.part_mode = 1)
    (hT : data.threads ≠ 0) (n : Nat) : main_targs data n = some (team_of data n) := by
  induction n with
  | zero => rfl
  | succ n ih =>
    unfold main_targs
    rw [ih, partition_eq { data with ntids := (n : Int) } hm hT]
    simp only [Option.some_bind, Option.map_some', team_of, List.range_succ, List.map_append,
      List.map_cons, List.map_nil]
    rfl

/-- Any number of threads, scheduled in any order, computes the rounds of `life`. -/
theorem play_gol_eq_life (data : gol_data) (m : Mem) (hwf : well_formed m data)
    (hm : data.part_mode = 0 ∨ data.part_mode = 1) (hrun : runs_loop data = true)
    (T : Nat) (hT : 1 ≤ T) (hTd : data.threads = (T : Int))
    (sched : List (List Nat)) (hs : ∀ o ∈ sched, o.Perm (List.range T)) :
    play_gol m (team_of data T) sched =
      ((life sched.length m data).1, team_of (life sched.length m data).2 T) := by
  unfold play_gol
  induction sched generalizing m data with
  | nil => rfl
  | cons o sched ih =>
    have ho := hs o (List.mem_cons_self o sched)
    rw [List.foldl_cons]
    have e : gol_round (m, team_of data T) o =
        (full_round m data, team_of (swap_boards data) T) := by
      unfold gol_round
      rw [compute_phase_full m data hwf hm hrun T hT hTd o ho, team_of_swap data hrun T]
    rw [e, ih (swap_boards data) (full_round m data) (well_formed_full_round m data hwf)
      hm hrun hTd (fun x hx => hs x (List.mem_cons_of_mem o hx))]
    rfl

theorem life_threads (k : Nat) (m : Mem) (data : gol_data) (T : Int) :
    life k m { data with threads := T } =
      ((life k m data).1, { (life k m data).2 with threads := T }) := by
  induction k generalizing m data with
  | zero => rfl
  | succ k ih =>
    have e1 : full_round m { data with threads := T } = full_round m data := rfl
    have e2 : swap_boards { data with threads := T } =
        { swap_boards data with threads := T } := rfl
    simp only [life, e1, e2, ih]

/-! ## Claim C6: the result does not depend on the partition -/

/-- C6 (determinism across partitions).  From any memory with two distinct
boards of `rows * cols` cells, in either orientation and for every thread count
`T ≥ 1`: `main` builds the `T` structs with `partition`, and `k` rounds in which
the threads `0..T-1` run `play_round` in any order (one permutation of the
thread indices per round) and then swap leave the same memory (both boards and
`total_live`) as `k` rounds of the single thread of `T = 1`; the board the
threads designate as current is the same in both runs. -/
theorem determinism_across_partitions (m : Mem) (data : gol_data) (T : Nat)
    (sched sched1 : List (List Nat))
    (hwf : well_formed m data)
    (hm : data.part_mode = 0 ∨ data.part_mode = 1)
    (hrun : runs_loop data = true)
    (hT : 1 ≤ T)
    (hs : ∀ o ∈ sched, o.Perm (List.range T))
    (hs1 : ∀ o ∈ sched1, o.Perm (List.range 1))
    (hk : sched.length = sched1.length) :
    ∃ targsT targs1,
      main_targs { data with threads := (T : Int) } T = some targsT ∧
      main_targs { data with threads := 1 } 1 = some targs1 ∧
      (play_gol m targsT sched).1 = (play_gol m targs1 sched1).1 ∧
      (play_gol m targsT sched).1.total_live = (play_gol m targs1 sched1).1.total_live ∧
      ∀ d ∈ (play_gol m targsT sched).2, ∀ d1 ∈ (play_gol m targs1 sched1).2,
        current_board (play_gol m targsT sched).1 d =
          current_board (play_gol m targs1 sched1).1 d1 := by
  have hT0 : ({ data with threads := (T : Int) } : gol_data).threads ≠ 0 := by
    show (T : Int) ≠ 0
    omega
  have h10 : ({ data with threads := 1 } : gol_data).threads ≠ 0 := by
    show (1 : Int) ≠ 0
    omega
  have eT := play_gol_eq_life { data with threads := (T : Int) } m hwf hm hrun T hT rfl sched hs
  have e1 := play_gol_eq_life { data with threads := 1 } m hwf hm hrun 1 (le_refl 1) rfl sched1 hs1
  rw [life_threads] at eT e1
  refine ⟨team_of { data with threads := (T : Int) } T, team_of { data with threads := 1 } 1,
    main_targs_eq { data with threads := (T : Int) } hm hT0 T,
    main_targs_eq { data with threads := 1 } hm h10 1, ?_, ?_, ?_⟩
  · rw [eT, e1, hk]
  · rw [eT, e1, hk]
  · intro d hd d1 hd1
    rw [eT] at hd ⊢
    rw [e1] at hd1 ⊢
    simp only [team_of, List.mem_map, List.mem_range] at hd hd1
    obtain ⟨t, _, rfl⟩ := hd
    obtain ⟨t1, _, rfl⟩ := hd1
    rw [hk]
    rfl

/-! ## Initialization -/

theorem init_game_data_eq (data : gol_data) (argv : Args) (f : SeedFile) (row col : Int)
    (hfile : argv.infile = some f)
    (hmode : argv.output_mode = 0 ∨ argv.output_mode = 1 ∨ argv.output_mode = 2) :
    init_game_data_from_args data argv row col =
      match init_board (init_mem f)
          { init_data data argv f with next_board := data.next_board } row col f.cells with
      | .error e => .error e
      | .ok m => .ok (init_data data argv f, { m with board_snd := zero_board f.rows f.cols }) := by
  unfold init_game_data_from_args
  simp only [hmode, not_true_eq_false, if_false, hfile]
  rfl

theorem init_data_runs_loop (data : gol_data) (argv : Args) (f : SeedFile)
    (hmode : argv.output_mode = 0 ∨ argv.output_mode = 1 ∨ argv.output_mode = 2) :
    runs_loop (init_data data argv f) = true := by
  rcases hmode with h | h | h <;> simp [runs_loop, init_data, h]

theorem zero_board_length (rows cols : Int) (hr : 1 ≤ rows) (hc : 1 ≤ cols) :
    ((zero_board rows cols).length : Int) = rows * cols := by
  have : 0 ≤ rows * cols := mul_nonneg (by omega) (by omega)
  simp only [zero_board, List.length_replicate]
  omega

theorem load_zero_board (rows cols k : Int) : load (zero_board rows cols) k = 0 := by
  unfold load zero_board
  split_ifs
  · by_cases h : k.toNat < (List.replicate (rows * cols).toNat (0 : Int)).length
    · rw [List.getD_eq_getElem _ _ h]
      simp
    · rw [List.getD_eq_default _ _ (by omega)]
  · rfl

theorem neighbors_of_zero_board (rows cols : Int) (data : gol_data) (i j : Int) :
    neighbors_of (zero_board rows cols) data i j = 0 := by
  simp [neighbors_of, count_neighbors_reads, load_zero_board]

theorem write_at_zero_board (rows cols : Int) (data : gol_data) (i j : Int) :
    write_at (zero_board rows cols) data i j = some 0 := by
  simp [write_at, cell_write, load_zero_board, neighbors_of_zero_board]

theorem delta_at_zero_board (rows cols : Int) (data : gol_data) (i j : Int) :
    delta_at (zero_board rows cols) data i j = 0 := by
  simp [delta_at, cell_delta, load_zero_board, neighbors_of_zero_board]

theorem sum_map_zero {α : Type} (l : List α) (f : α → Int) (h : ∀ x, f x = 0) :
    (l.map f).sum = 0 := by
  induction l with
  | nil => rfl
  | cons a l ih => simp [h a, ih]

/-- On two zero boards a whole round changes nothing. -/
theorem full_round_zero (m : Mem) (data : gol_data) (rows cols : Int)
    (hg : m.get data.gol_board = zero_board rows cols)
    (hn : m.get data.next_board = zero_board rows cols) :
    full_round m data = m := by
  have h1 : next_board_of (zero_board rows cols) (zero_board rows cols) data =
      zero_board rows cols := by
    apply board_ext _ _ (next_board_of_length _ _ _)
    intro k hk
    rw [next_board_of_length] at hk
    rw [load_next_board_of _ _ _ k hk, load_zero_board]
    simp [next_cell, write_at_zero_board, upd]
  have h2 : total_delta (zero_board rows cols) data = 0 := by
    unfold total_delta grid_delta
    apply sum_map_zero
    intro i
    apply sum_map_zero
    intro j
    exact delta_at_zero_board rows cols data i j
  unfold full_round
  rw [hg, hn, h1, h2, ← hn, Mem.set_get]
  simp

theorem life_zero (k : Nat) (m : Mem) (data : gol_data) (rows cols : Int)
    (hg : m.get data.gol_board = zero_board rows cols)
    (hn : m.get data.next_board = zero_board rows cols) :
    (life k m data).1 = m := by
  induction k generalizing data with
  | zero => rfl
  | succ k ih =>
    simp only [life, full_round_zero m data rows cols hg hn]
    exact ih (swap_boards data) hn hg

theorem life_gol_board (k : Nat) (m : Mem) (data : gol_data) :
    (life k m data).2.gol_board = data.gol_board ∨
      (life k m data).2.gol_board = data.next_board := by
  induction k generalizing m data with
  | zero => exact Or.inl rfl
  | succ k ih =>
    rcases ih (full_round m data) (swap_boards data) with h | h
    · exact Or.inr h
    · exact Or.inl h

/-! ## Claim C8: the empty board -/

/-- C8 (empty board).  For a seed file with `rows, cols ≥ 1` that declares zero
live cells, every thread count `T ≥ 1` and either orientation: initialization
succeeds with both boards all `0` and `total_live = 0`, and after any number of
rounds (any `sched`, one permutation of the threads per round) `total_live` is
`0` and the board every thread designates as current has `rows * cols` cells,
all `0`. -/
theorem empty_board_fixed_point (data0 : gol_data) (argv : Args) (f : SeedFile)
    (row col : Int) (T : Nat) (sched : List (List Nat))
    (hfile : argv.infile = some f)
    (hmode : argv.output_mode = 0 ∨ argv.output_mode = 1 ∨ argv.output_mode = 2)
    (hpm : argv.part_mode = 0 ∨ argv.part_mode = 1)
    (hthreads : argv.threads = (T : Int)) (hT : 1 ≤ T)
    (hrows : 1 ≤ f.rows) (hcols : 1 ≤ f.cols) (hlive : f.total_live = 0)
    (hs : ∀ o ∈ sched, o.Perm (List.range T)) :
    ∃ data m targs,
      init_game_data_from_args data0 argv row col = .ok (data, m) ∧
      main_targs data T = some targs ∧
      m.total_live = 0 ∧
      (play_gol m targs sched).1.total_live = 0 ∧
      ∀ d ∈ (play_gol m targs sched).2,
        ((current_board (play_gol m targs sched).1 d).length : Int) = f.rows * f.cols ∧
        ∀ x ∈ current_board (play_gol m targs sched).1 d, x = 0 := by
  have hinit : init_game_data_from_args data0 argv row col =
      .ok (init_data data0 argv f,
        { init_mem f with board_snd := zero_board f.rows f.cols }) := by
    rw [init_game_data_eq data0 argv f row col hfile hmode]
    simp [init_board, init_mem, hlive, init_board_loop]
  have hwf : well_formed { init_mem f with board_snd := zero_board f.rows f.cols }
      (init_data data0 argv f) :=
    ⟨by simp [init_data], zero_board_length _ _ hrows hcols, zero_board_length _ _ hrows hcols,
      hrows, hcols⟩
  have hT0 : (init_data data0 argv f).threads ≠ 0 := by
    show argv.threads ≠ 0
    omega
  have e := play_gol_eq_life (init_data data0 argv f) _ hwf hpm
    (init_data_runs_loop data0 argv f hmode) T hT hthreads sched hs
  have hz := life_zero sched.length
    { init_mem f with board_snd := zero_board f.rows f.cols } (init_data data0 argv f)
    f.rows f.cols rfl rfl
  refine ⟨_, _, _, hinit, main_targs_eq _ hpm hT0 T, hlive, ?_, ?_⟩
  · rw [e, hz]
    exact hlive
  · intro d hd
    rw [e] at hd ⊢
    simp only [team_of, List.mem_map, List.mem_range] at hd
    obtain ⟨t, _, rfl⟩ := hd
    have hb : current_board (life sched.length
          { init_mem f with board_snd := zero_board f.rows f.cols } (init_data data0 argv f)).1
        (thread_of (life sched.length
          { init_mem f with board_snd := zero_board f.rows f.cols } (init_data data0 argv f)).2 t) =
        zero_board f.rows f.cols := by
      rw [hz]
      show Mem.get _ (life sched.length _ (init_data data0 argv f)).2.gol_board = _
      rcases life_gol_board sched.length
        { init_mem f with board_snd := zero_board f.rows f.cols } (init_data data0 argv f)
        with h | h <;> rw [h] <;> rfl
    rw [hb]
    refine ⟨zero_board_length _ _ hrows hcols, ?_⟩
    intro x hx
    exact List.eq_of_mem_replicate hx

/-! ## Witnesses for C3, C4, C6 and C8 -/

/-- Witness for C3: the centre cell of `demo_mem`. -/
theorem play_round_rule_witness :
    demo_data.gol_board ≠ demo_data.next_board ∧
    ((demo_mem.get demo_data.gol_board).length : Int) = demo_data.rows * demo_data.cols ∧
    ((demo_mem.get demo_data.next_board).length : Int) = demo_data.rows * demo_data.cols ∧
    binary_board (demo_mem.get demo_data.gol_board) ∧
    range_in_grid demo_data ∧
    in_partition demo_data 1 1 ∧
    ((load ((play_round demo_mem demo_data).get demo_data.next_board)
          (1 * demo_data.cols + 1) = 1 ↔
        (load (demo_mem.get demo_data.gol_board) (1 * demo_data.cols + 1) = 1 ∧
            (count_neighbors demo_mem demo_data 1 1 = 2 ∨
              count_neighbors demo_mem demo_data 1 1 = 3)) ∨
        (load (demo_mem.get demo_data.gol_board) (1 * demo_data.cols + 1) = 0 ∧
            count_neighbors demo_mem demo_data 1 1 = 3)) ∧
      (¬ ((load (demo_mem.get demo_data.gol_board) (1 * demo_data.cols + 1) = 1 ∧
            (count_neighbors demo_mem demo_data 1 1 = 2 ∨
              count_neighbors demo_mem demo_data 1 1 = 3)) ∨
          (load (demo_mem.get demo_data.gol_board) (1 * demo_data.cols + 1) = 0 ∧
            count_neighbors demo_mem demo_data 1 1 = 3)) →
        load ((play_round demo_mem demo_data).get demo_data.next_board)
          (1 * demo_data.cols + 1) = 0)) :=
  ⟨by decide, by decide, by decide, by decide, by decide, by decide,
    play_round_rule demo_mem demo_data 1 1 (by decide) (by decide) (by decide) (by decide)
      (by decide) (by decide)⟩

/-- Witness for C4: the corner cell `(0, 0)` of `demo_mem`. -/
theorem count_neighbors_toroidal_witness :
    (1 : Int) ≤ demo_data.rows ∧ (1 : Int) ≤ demo_data.cols ∧
    (0 : Int) < demo_data.rows ∧ (0 : Int) < demo_data.cols ∧
    (count_neighbors demo_mem demo_data 0 0 =
        toroidal_count (demo_mem.get demo_data.gol_board) demo_data.rows demo_data.cols 0 0 ∧
      (∀ k ∈ count_neighbors_reads demo_data 0 0,
        0 ≤ k ∧ k < demo_data.rows * demo_data.cols) ∧
      (binary_board (demo_mem.get demo_data.gol_board) →
        0 ≤ count_neighbors demo_mem demo_data 0 0 ∧ count_neighbors demo_mem demo_data 0 0 ≤ 8) ∧
      (0 * demo_data.cols + 0 ∈
        count_neighbors_reads demo_data (demo_data.rows - 1) (demo_data.cols - 1)) ∧
      ((demo_data.rows - 1) * demo_data.cols + (demo_data.cols - 1) ∈
        count_neighbors_reads demo_data 0 0) ∧
      (binary_board (demo_mem.get demo_data.gol_board) →
        (load (demo_mem.get demo_data.gol_board) (0 * demo_data.cols + 0) = 1 →
          1 ≤ count_neighbors demo_mem demo_data (demo_data.rows - 1) (demo_data.cols - 1)) ∧
        (load (demo_mem.get demo_data.gol_board)
            ((demo_data.rows - 1) * demo_data.cols + (demo_data.cols - 1)) = 1 →
          1 ≤ count_neighbors demo_mem demo_data 0 0))) :=
  ⟨by decide, by decide, by decide, by decide,
    count_neighbors_toroidal demo_mem demo_data 0 0 (by decide) (by decide) (by decide)
      (by decide) (by decide) (by decide)⟩

/-- Witness for C6: two threads, two rounds, the threads in a different order
in each round, against the single thread. -/
theorem determinism_across_partitions_witness :
    well_formed demo_mem demo_data ∧
    (∀ o ∈ [[1, 0], [0, 1]], o.Perm (List.range 2)) ∧
    (∀ o ∈ [[0], [0]], o.Perm (List.range 1)) ∧
    ∃ targsT targs1,
      main_targs { demo_data with threads := ((2 : Nat) : Int) } 2 = some targsT ∧
      main_targs { demo_data with threads := 1 } 1 = some targs1 ∧
      (play_gol demo_mem targsT [[1, 0], [0, 1]]).1 =
        (play_gol demo_mem targs1 [[0], [0]]).1 ∧
      (play_gol demo_mem targsT [[1, 0], [0, 1]]).1.total_live =
        (play_gol demo_mem targs1 [[0], [0]]).1.total_live ∧
      ∀ d ∈ (play_gol demo_mem targsT [[1, 0], [0, 1]]).2,
        ∀ d1 ∈ (play_gol demo_mem targs1 [[0], [0]]).2,
          current_board (play_gol demo_mem targsT [[1, 0], [0, 1]]).1 d =
            current_board (play_gol demo_mem targs1 [[0], [0]]).1 d1 :=
  ⟨by decide, by decide, by decide,
    determinism_across_partitions demo_mem demo_data 2 [[1, 0], [0, 1]] [[0], [0]]
      (by decide) (by decide) (by decide) (by decide) (by decide) (by decide) rfl⟩

/-- Witness for C8: `empty_args`, two rounds of two threads. -/
theorem empty_board_fixed_point_witness :
    (1 : Int) ≤ empty_seed.rows ∧ (1 : Int) ≤ empty_seed.cols ∧ empty_seed.total_live = 0 ∧
    (∀ o ∈ [[0, 1], [1, 0]], o.Perm (List.range 2)) ∧
    ∃ data m targs,
      init_game_data_from_args demo_data empty_args 0 0 = .ok (data, m) ∧
      main_targs data 2 = some targs ∧
      m.total_live = 0 ∧
      (play_gol m targs [[0, 1], [1, 0]]).1.total_live = 0 ∧
      ∀ d ∈ (play_gol m targs [[0, 1], [1, 0]]).2,
        ((current_board (play_gol m targs [[0, 1], [1, 0]]).1 d).length : Int) =
          empty_seed.rows * empty_seed.cols ∧
        ∀ x ∈ current_board (play_gol m targs [[0, 1], [1, 0]]).1 d, x = 0 :=
  ⟨by decide, by decide, by decide, by decide,
    empty_board_fixed_point demo_data empty_args empty_seed 0 0 2 [[0, 1], [1, 0]]
      rfl (by decide) (by decide) rfl (by decide) (by decide) (by decide) (by decide)
      (by decide)⟩

/-! ## `init_board` -/

theorem store_store (b : List Int) (k v : Int) : store (store b k v) k v = store b k v := by
  unfold store
  split_ifs
  · rw [List.set_set]
  · rfl

theorem mark_cols_eq (cols i row col : Int) (js : List Int) (b : List Int) :
    js.foldl (fun b j => if i = row ∧ j = col then store b (i * cols + j) 1 else b) b =
      if i = row ∧ col ∈ js then store b (row * cols + col) 1 else b := by
  induction js generalizing b with
  | nil => simp
  | cons j js ih =>
    rw [List.foldl_cons, ih]
    by_cases h1 : i = row
    · subst h1
      by_cases h2 : j = col
      · subst h2
        by_cases h3 : j ∈ js <;> simp [h3, store_store]
      · have h2' : ¬ col = j := fun h => h2 h.symm
        by_cases h3 : col ∈ js <;> simp [h2, h2', h3]
    · simp [h1]

theorem mark_cell_eq (data : gol_data) (b : List Int) (row col : Int) :
    mark_cell data b row col =
      if in_grid data (row, col) then store b (row * data.cols + col) 1 else b := by
  have hrows : ∀ (is : List Int) (b : List Int),
      is.foldl (fun b i => (int_range 0 (data.cols - 1)).foldl
        (fun b j => if i = row ∧ j = col then store b (i * data.cols + j) 1 else b) b) b =
      if row ∈ is ∧ col ∈ int_range 0 (data.cols - 1) then store b (row * data.cols + col) 1
      else b := by
    intro is
    induction is with
    | nil => simp
    | cons i is ih =>
      intro b
      rw [List.foldl_cons, ih, mark_cols_eq]
      by_cases h1 : i = row
      · subst h1
        by_cases h2 : i ∈ is <;> by_cases h3 : col ∈ int_range 0 (data.cols - 1) <;>
          simp [h2, h3, store_store]
      · have h1' : ¬ row = i := fun h => h1 h.symm
        by_cases h2 : row ∈ is <;> by_cases h3 : col ∈ int_range 0 (data.cols - 1) <;>
          simp [h1, h1', h2, h3]
  unfold mark_cell
  rw [hrows]
  have e : (row ∈ int_range 0 (data.rows - 1) ∧ col ∈ int_range 0 (data.cols - 1)) ↔
      in_grid data (row, col) := by
    simp only [mem_int_range, in_grid]
    constructor <;> intro h <;> omega
  simp only [e]

theorem init_board_loop_eq (data : gol_data) (cs : List (Int × Int)) (row col : Int) (m : Mem)
    (hcs : ∀ c ∈ cs, c.1 ≤ data.rows - 1 ∧ c.2 ≤ data.cols - 1) :
    init_board_loop data cs.length row col cs m =
      .ok (m.set data.gol_board (mark_all data (m.get data.gol_board) cs)) := by
  induction cs generalizing row col m with
  | nil => simp [init_board_loop, mark_all, Mem.set_get]
  | cons c cs ih =>
    have hc := hcs c (List.mem_cons_self c cs)
    have hno : ¬ (c.1 > data.rows - 1 ∨ c.2 > data.cols - 1) := by omega
    simp only [List.length_cons, init_board_loop, List.head?_cons, Option.map_some',
      Option.getD_some, hno, if_false, List.tail_cons]
    rw [ih _ _ _ (fun x hx => hcs x (List.mem_cons_of_mem c hx))]
    simp [mark_all, Mem.get_set_same, Mem.set_set]

/-- A seed whose declared count is the number of its pairs, none of them above
the grid, is accepted. -/
theorem init_game_data_ok (data : gol_data) (argv : Args) (f : SeedFile) (row col : Int)
    (hfile : argv.infile = some f)
    (hmode : argv.output_mode = 0 ∨ argv.output_mode = 1 ∨ argv.output_mode = 2)
    (hn : f.total_live = (f.cells.length : Int))
    (hcs : ∀ c ∈ f.cells, c.1 ≤ f.rows - 1 ∧ c.2 ≤ f.cols - 1) :
    init_game_data_from_args data argv row col =
      .ok (init_data data argv f,
        { board_fst := mark_all (init_data data argv f) (zero_board f.rows f.cols) f.cells,
          board_snd := zero_board f.rows f.cols,
          total_live := f.total_live }) := by
  rw [init_game_data_eq data argv f row col hfile hmode]
  have e : (init_mem f).total_live.toNat = f.cells.length := by
    show f.total_live.toNat = f.cells.length
    omega
  unfold init_board
  rw [e, init_board_loop_eq _ _ _ _ _ hcs]
  rfl

/-! ## Claim C7: the glider -/

theorem full_round_congr (m : Mem) (d d' : gol_data) (hr : d.rows = d'.rows)
    (hc : d.cols = d'.cols) (hg : d.gol_board = d'.gol_board)
    (hn : d.next_board = d'.next_board) : full_round m d = full_round m d' := by
  have hw : ∀ cur, write_at cur d = write_at cur d' := by
    intro cur
    funext i j
    simp only [write_at, neighbors_of, count_neighbors_reads, hr, hc]
  have hd : ∀ cur, delta_at cur d = delta_at cur d' := by
    intro cur
    funext i j
    simp only [delta_at, neighbors_of, count_neighbors_reads, hr, hc]
  have hnc : ∀ cur old, next_cell cur old d = next_cell cur old d' := by
    intro cur old
    funext k
    simp only [next_cell, hw, hc]
  simp only [full_round, total_delta, grid_delta, next_board_of, hd, hnc, hr, hc, hg, hn]

theorem life_congr (k : Nat) (m : Mem) (d d' : gol_data) (hr : d.rows = d'.rows)
    (hc : d.cols = d'.cols) (hg : d.gol_board = d'.gol_board)
    (hn : d.next_board = d'.next_board) :
    (life k m d).1 = (life k m d').1 ∧
      (life k m d).2.gol_board = (life k m d').2.gol_board := by
  induction k generalizing m d d' with
  | zero => exact ⟨rfl, hg⟩
  | succ k ih =>
    simp only [life, full_round_congr m d d' hr hc hg hn]
    exact ih _ (swap_boards d) (swap_boards d') hr hc hn hg

set_option maxRecDepth 100000 in
theorem glider_life :
    (life 4 glider_mem glider_data).1.total_live = 5 ∧
    (life 4 glider_mem glider_data).1.get (life 4 glider_mem glider_data).2.gol_board =
      board_of_cells 10 10 glider_shifted := by
  decide!

set_option maxRecDepth 100000 in
theorem glider_loaded (data : gol_data) (hr : data.rows = 10) (hc : data.cols = 10) :
    mark_all data (zero_board 10 10) glider_seed.cells =
      board_of_cells 10 10 glider_seed.cells := by
  simp only [mark_all, glider_seed, List.foldl_cons, List.foldl_nil, mark_cell_eq, in_grid,
    hr, hc]
  decide!

/-- C7 (glider).  The five-cell glider `(0,1),(1,2),(2,0),(2,1),(2,2)` loaded on
a 10 x 10 grid, with any thread count `T ≥ 1`, either orientation and any order
of the threads in each of the 4 rounds: after the 4 rounds the live cells of the
current board are exactly the seed's cells moved by one row and one column
(modulo 10), and `total_live` is 5. -/
theorem glider_scenario (data0 : gol_data) (argv : Args) (row col : Int) (T : Nat)
    (sched : List (List Nat))
    (hfile : argv.infile = some glider_seed)
    (hmode : argv.output_mode = 0 ∨ argv.output_mode = 1 ∨ argv.output_mode = 2)
    (hpm : argv.part_mode = 0 ∨ argv.part_mode = 1)
    (hthreads : argv.threads = (T : Int)) (hT : 1 ≤ T)
    (hs : ∀ o ∈ sched, o.Perm (List.range T))
    (hk : sched.length = 4) :
    ∃ data m targs,
      init_game_data_from_args data0 argv row col = .ok (data, m) ∧
      main_targs data T = some targs ∧
      current_board m data = board_of_cells 10 10 glider_seed.cells ∧
      m.total_live = 5 ∧
      (play_gol m targs sched).1.total_live = 5 ∧
      ∀ d ∈ (play_gol m targs sched).2,
        current_board (play_gol m targs sched).1 d = board_of_cells 10 10 glider_shifted := by
  have hinit : init_game_data_from_args data0 argv row col =
      .ok (init_data data0 argv glider_seed, glider_mem) := by
    rw [init_game_data_ok data0 argv glider_seed row col hfile hmode rfl (by decide)]
    have e := glider_loaded (init_data data0 argv glider_seed) rfl rfl
    have e' : mark_all (init_data data0 argv glider_seed)
        (zero_board glider_seed.rows glider_seed.cols) glider_seed.cells =
        board_of_cells 10 10 glider_seed.cells := e
    rw [e']
    rfl
  have hwf0 : well_formed glider_mem glider_data := by decide
  have hwf : well_formed glider_mem (init_data data0 argv glider_seed) := hwf0
  have hT0 : (init_data data0 argv glider_seed).threads ≠ 0 := by
    show argv.threads ≠ 0
    omega
  have e := play_gol_eq_life (init_data data0 argv glider_seed) glider_mem hwf hpm
    (init_data_runs_loop data0 argv glider_seed hmode) T hT hthreads sched hs
  obtain ⟨c1, c2⟩ := life_congr 4 glider_mem (init_data data0 argv glider_seed) glider_data
    rfl rfl rfl rfl
  obtain ⟨g1, g2⟩ := glider_life
  refine ⟨_, _, _, hinit, main_targs_eq _ hpm hT0 T, rfl, rfl, ?_, ?_⟩
  · show (play_gol glider_mem _ sched).1.total_live = 5
    rw [e, hk, c1]
    exact g1
  · intro d hd
    change d ∈ (play_gol glider_mem _ sched).2 at hd
    show current_board (play_gol glider_mem _ sched).1 d = _
    rw [e] at hd ⊢
    simp only [team_of, List.mem_map, List.mem_range] at hd
    obtain ⟨t, _, rfl⟩ := hd
    rw [hk]
    show Mem.get (life 4 glider_mem (init_data data0 argv glider_seed)).1
      (life 4 glider_mem (init_data data0 argv glider_seed)).2.gol_board = _
    rw [c1, c2]
    exact g2

/-- Witness for C7: `glider_args`, three threads in changing order. -/
theorem glider_scenario_witness :
    (∀ o ∈ [[0, 1, 2], [2, 1, 0], [1, 0, 2], [0, 2, 1]], o.Perm (List.range 3)) ∧
    ∃ data m targs,
      init_game_data_from_args demo_data glider_args 0 0 = .ok (data, m) ∧
      main_targs data 3 = some targs ∧
      current_board m data = board_of_cells 10 10 glider_seed.cells ∧
      m.total_live = 5 ∧
      (play_gol m targs [[0, 1, 2], [2, 1, 0], [1, 0, 2], [0, 2, 1]]).1.total_live = 5 ∧
      ∀ d ∈ (play_gol m targs [[0, 1, 2], [2, 1, 0], [1, 0, 2], [0, 2, 1]]).2,
        current_board (play_gol m targs [[0, 1, 2], [2, 1, 0], [1, 0, 2], [0, 2, 1]]).1 d =
          board_of_cells 10 10 glider_shifted :=
  ⟨by decide,
    glider_scenario demo_data glider_args 0 0 3 [[0, 1, 2], [2, 1, 0], [1, 0, 2], [0, 2, 1]]
      rfl (by decide) (by decide) rfl (by decide) (by decide) rfl⟩

/-! ## Claim C9: seed cells outside the grid -/

/-- A pair above the grid is rejected: with a declared count equal to the number
of pairs, a pair with `row > rows - 1` or `col > cols - 1` makes `init_board`
fail with the out-of-range error. -/
theorem init_board_rejects_high (data : gol_data) (cs : List (Int × Int)) (row col : Int)
    (m : Mem) (h : ∃ c ∈ cs, c.1 > data.rows - 1 ∨ c.2 > data.cols - 1) :
    init_board_loop data cs.length row col cs m = .error .out_of_range := by
  induction cs generalizing row col m with
  | nil => simp at h
  | cons c cs ih =>
    simp only [List.length_cons, init_board_loop, List.head?_cons, Option.map_some',
      Option.getD_some, List.tail_cons]
    by_cases hc : c.1 > data.rows - 1 ∨ c.2 > data.cols - 1
    · rw [if_pos hc]
    · rw [if_neg hc]
      apply ih
      obtain ⟨x, hx, hbad⟩ := h
      rcases List.mem_cons.1 hx with rfl | hx'
      · exact absurd hbad hc
      · exact ⟨x, hx', hbad⟩

/-- C9 at the failing input: on a 3 x 3 grid the pair `(-1, 0)` lies outside
`[0,3) x [0,3)`, yet `init_board` returns normally, no cell is set, and
`init_game_data_from_args` returns success with `total_live = 1`. -/
theorem init_board_accepts_negative_cell :
    ¬ in_grid (init_data demo_data negative_args negative_seed) (-1, 0) ∧
    init_board (init_mem negative_seed) (init_data demo_data negative_args negative_seed) 0 0
        negative_seed.cells = .ok (init_mem negative_seed) ∧
    init_game_data_from_args demo_data negative_args 0 0 =
      .ok (init_data demo_data negative_args negative_seed,
           ⟨zero_board 3 3, zero_board 3 3, 1⟩) := by
  refine ⟨by decide, ?_, ?_⟩
  · rfl
  · rfl

/-! ## Claim C10: thread count and orientation flag are not validated -/

theorem mark_cell_congr (d d' : gol_data) (hr : d.rows = d'.rows) (hc : d.cols = d'.cols)
    (b : List Int) (row col : Int) : mark_cell d b row col = mark_cell d' b row col := by
  simp only [mark_cell, hr, hc]

theorem init_board_loop_congr (d d' : gol_data) (hr : d.rows = d'.rows) (hc : d.cols = d'.cols)
    (hg : d.gol_board = d'.gol_board) (n : Nat) (row col : Int) (file : List (Int × Int))
    (m : Mem) :
    init_board_loop d n row col file m = init_board_loop d' n row col file m := by
  induction n generalizing row col file m with
  | zero => rfl
  | succ n ih =>
    simp only [init_board_loop, hr, hc, hg, ih, mark_cell_congr d d' hr hc]

theorem partition_other_mode (data : gol_data)
    (hm : ¬ (data.part_mode = 0 ∨ data.part_mode = 1)) : partition data = some data := by
  have h0 : ¬ data.part_mode = 0 := fun h => hm (Or.inl h)
  have h1 : ¬ data.part_mode = 1 := fun h => hm (Or.inr h)
  simp [partition, h0, h1]

theorem partition_trap (data : gol_data) (hm : data.part_mode = 0 ∨ data.part_mode = 1)
    (hT : data.threads = 0) : partition data = none := by
  rcases hm with h | h <;> simp [partition, partition_branch, h, hT]

theorem main_targs_other_mode (data : gol_data)
    (hm : ¬ (data.part_mode = 0 ∨ data.part_mode = 1)) (n : Nat) :
    ∃ ts, main_targs data n = some ts ∧ ts.length = n := by
  induction n with
  | zero => exact ⟨[], rfl, rfl⟩
  | succ n ih =>
    obtain ⟨ts, h1, h2⟩ := ih
    refine ⟨ts ++ [{ data with ntids := (n : Int) }], ?_, by simp [h2]⟩
    unfold main_targs
    rw [h1, partition_other_mode { data with ntids := (n : Int) } hm]
    rfl

theorem main_targs_trap (data : gol_data) (hm : data.part_mode = 0 ∨ data.part_mode = 1)
    (hT : data.threads = 0) (n : Nat) (hn : 1 ≤ n) : main_targs data n = none := by
  obtain ⟨k, rfl⟩ : ∃ k, n = k + 1 := ⟨n - 1, by omega⟩
  unfold main_targs
  rw [partition_trap { data with ntids := (k : Int) } hm hT]
  cases main_targs data k <;> rfl

/-- What `init_game_data_from_args` returns on success does not depend on the
thread count or on the orientation flag, except that it stores them. -/
theorem init_ok_any_threads (data0 : gol_data) (argv : Args)
    (row col : Int) (threads part_mode : Int) (d : gol_data) (m : Mem)
    (hok : init_game_data_from_args data0 argv row col = .ok (d, m)) :
    init_game_data_from_args data0
        { argv with threads := threads, part_mode := part_mode } row col =
      .ok ({ d with threads := threads, part_mode := part_mode }, m) := by
  by_cases hmode : argv.output_mode = 0 ∨ argv.output_mode = 1 ∨ argv.output_mode = 2
  · have hcase : argv.infile = none ∨ ∃ f, argv.infile = some f := by
      cases argv.infile with
      | none => exact Or.inl rfl
      | some f => exact Or.inr ⟨f, rfl⟩
    rcases hcase with hf | ⟨f, hf⟩
    · simp [init_game_data_from_args, hmode, hf] at hok
    · rw [init_game_data_eq data0 argv f row col hf hmode] at hok
      rw [init_game_data_eq data0 { argv with threads := threads, part_mode := part_mode }
        f row col hf hmode]
      have e : init_board (init_mem f)
          { init_data data0 { argv with threads := threads, part_mode := part_mode } f with
            next_board := data0.next_board } row col f.cells =
          init_board (init_mem f)
            { init_data data0 argv f with next_board := data0.next_board } row col f.cells :=
        init_board_loop_congr
          { init_data data0 { argv with threads := threads, part_mode := part_mode } f with
            next_board := data0.next_board }
          { init_data data0 argv f with next_board := data0.next_board }
          rfl rfl rfl _ _ _ _ _
      rw [e]
      cases hb : init_board (init_mem f)
          { init_data data0 argv f with next_board := data0.next_board } row col f.cells with
      | error e => rw [hb] at hok; simp at hok
      | ok m' =>
        rw [hb] at hok
        simp only [Except.ok.injEq, Prod.mk.injEq] at hok
        obtain ⟨rfl, rfl⟩ := hok
        rfl
  · simp [init_game_data_from_args, hmode] at hok

/-- The array `targs` after the first iteration of the creation loop holds
what the first `partition` call returned. -/
theorem main_targs_one (data : gol_data) :
    main_targs data 1 = (main_first_partition data).map fun w => [w] := by
  unfold main_targs main_first_partition
  cases partition { data with ntids := ((0 : Nat) : Int) } <;> rfl

/-- C10 as stated fails: with thread count `-1` and orientation flag `2`
initialization reports no error (it returns success, with both values stored),
and the run is not aborted before `partition`: the first `partition` call of
`main` is made and returns. -/
theorem config_error_not_reported :
    bad_args.threads < 1 ∧ ¬ (bad_args.part_mode = 0 ∨ bad_args.part_mode = 1) ∧
    init_game_data_from_args demo_data bad_args 0 0 =
      .ok (init_data demo_data bad_args empty_seed, ⟨zero_board 3 3, zero_board 3 3, 0⟩) ∧
    (init_data demo_data bad_args empty_seed).threads = -1 ∧
    (init_data demo_data bad_args empty_seed).part_mode = 2 ∧
    main_first_partition (init_data demo_data bad_args empty_seed) =
      some { init_data demo_data bad_args empty_seed with ntids := 0 } :=
  ⟨by decide, by decide, rfl, rfl, rfl, rfl⟩

/-- C10 amended.  A thread count below 1 or an orientation flag other than 0
and 1 makes initialization report no error: a configuration in output mode 0
or 1, with a grid of positive dimensions, that `init_game_data_from_args`
accepts is accepted with any thread count and any flag, with the same boards
and `total_live`, the two values being stored unchecked in `data.threads` and
`data.part_mode`.  The run is not aborted before `partition`: `main` does not
leave through its initialization error exit, and its first `partition` call
returns, unless the thread count is 0 and the flag is 0 or 1, where that call
divides by zero.  (In output mode 2 the ParaVis library is called between
initialization and the creation loop; that call is not part of the source.) -/
theorem init_accepts_any_threads_and_part_mode (data0 : gol_data) (argv : Args)
    (row col : Int) (threads part_mode : Int) (d : gol_data) (m : Mem)
    (hok : init_game_data_from_args data0 argv row col = .ok (d, m))
    (hmode : argv.output_mode = 0 ∨ argv.output_mode = 1)
    (hrows : 1 ≤ d.rows) (hcols : 1 ≤ d.cols) :
    init_game_data_from_args data0
        { argv with threads := threads, part_mode := part_mode } row col =
      .ok ({ d with threads := threads, part_mode := part_mode }, m) ∧
    (∀ e : InitError,
      main_startup data0 { argv with threads := threads, part_mode := part_mode } row col ≠
        .init_failed e) ∧
    ((threads ≠ 0 ∨ ¬ (part_mode = 0 ∨ part_mode = 1)) →
      ∃ w, main_first_partition { d with threads := threads, part_mode := part_mode } =
        some w) ∧
    (threads = 0 → (part_mode = 0 ∨ part_mode = 1) →
      main_first_partition { d with threads := threads, part_mode := part_mode } = none) := by
  have hinit := init_ok_any_threads data0 argv row col threads part_mode d m hok
  refine ⟨hinit, ?_, ?_, ?_⟩
  · intro e h
    unfold main_startup at h
    rw [hinit] at h
    cases hts : main_targs { d with threads := threads, part_mode := part_mode }
        (main_ntids { argv with threads := threads, part_mode := part_mode }).toNat with
    | none => simp [hts] at h
    | some ts => simp [hts] at h
  · intro h
    unfold main_first_partition
    by_cases hm : part_mode = 0 ∨ part_mode = 1
    · have hT : threads ≠ 0 := by
        rcases h with h | h
        · exact h
        · exact absurd hm h
      exact ⟨_, partition_eq
        { { d with threads := threads, part_mode := part_mode } with ntids := 0 } hm hT⟩
    · exact ⟨_, partition_other_mode
        { { d with threads := threads, part_mode := part_mode } with ntids := 0 } hm⟩
  · intro hT hm
    exact partition_trap
      { { d with threads := threads, part_mode := part_mode } with ntids := 0 } hm hT

/-- Witness for the amended C10: `empty_args` with thread count `-1` and flag `2`. -/
theorem init_accepts_any_threads_and_part_mode_witness :
    init_game_data_from_args demo_data empty_args 0 0 =
      .ok (init_data demo_data empty_args empty_seed,
           ⟨zero_board 3 3, zero_board 3 3, 0⟩) ∧
    (empty_args.output_mode = 0 ∨ empty_args.output_mode = 1) ∧
    (1 : Int) ≤ (init_data demo_data empty_args empty_seed).rows ∧
    (1 : Int) ≤ (init_data demo_data empty_args empty_seed).cols ∧
    init_game_data_from_args demo_data
        { empty_args with threads := -1, part_mode := 2 } 0 0 =
      .ok ({ init_data demo_data empty_args empty_seed with threads := -1, part_mode := 2 },
           ⟨zero_board 3 3, zero_board 3 3, 0⟩) ∧
    (∀ e : InitError,
      main_startup demo_data { empty_args with threads := -1, part_mode := 2 } 0 0 ≠
        .init_failed e) ∧
    (((-1 : Int) ≠ 0 ∨ ¬ ((2 : Int) = 0 ∨ (2 : Int) = 1)) →
      ∃ w, main_first_partition
          { init_data demo_data empty_args empty_seed with threads := -1, part_mode := 2 } =
        some w) ∧
    ((-1 : Int) = 0 → ((2 : Int) = 0 ∨ (2 : Int) = 1) →
      main_first_partition
          { init_data demo_data empty_args empty_seed with threads := -1, part_mode := 2 } =
        none) :=
  ⟨rfl, by decide, by decide, by decide,
    init_accepts_any_threads_and_part_mode demo_data empty_args 0 0 (-1) 2
      (init_data demo_data empty_args empty_seed) ⟨zero_board 3 3, zero_board 3 3, 0⟩ rfl
      (by decide) (by decide) (by decide)⟩

/-! ## Counting live cells -/

theorem live_count_eq_sum_map (b : List Int) :
    live_count b = (b.map fun x => if x = 1 then (1 : Int) else 0).sum := by
  unfold live_count
  induction b with
  | nil => rfl
  | cons a b ih =>
    rw [List.count_cons, List.map_cons, List.sum_cons, ← ih]
    by_cases h : a = 1
    · simp [h, add_comm]
    · simp [h]

theorem list_eq_map_range (b : List Int) :
    b = (List.range b.length).map fun (k : Nat) => b.getD k 0 := by
  apply List.ext_getElem (by simp)
  intro n h1 h2
  simp [List.getElem?_eq_getElem h1]

theorem live_count_eq_sum (b : List Int) :
    live_count b =
      ((List.range b.length).map fun (k : Nat) => if b.getD k 0 = 1 then (1 : Int) else 0).sum := by
  rw [live_count_eq_sum_map]
  conv_lhs => rw [list_eq_map_range b]
  rw [List.map_map]
  rfl

theorem sum_range_mul (R C : Nat) (g : Nat → Int) :
    ((List.range (R * C)).map g).sum =
      ((List.range R).map fun (i : Nat) =>
        ((List.range C).map fun (j : Nat) => g (i * C + j)).sum).sum := by
  induction R with
  | zero => simp
  | succ R ih =>
    have e : (R + 1) * C = R * C + C := by ring
    rw [e, List.range_add, List.map_append, List.sum_append, ih, List.range_succ, List.map_append,
      List.sum_append, List.map_map]
    simp only [List.map_cons, List.map_nil, List.sum_cons, List.sum_nil, add_zero]
    rfl

theorem live_count_zero_board (rows cols : Int) : live_count (zero_board rows cols) = 0 := by
  simp [live_count, zero_board, List.count_replicate]

theorem binary_zero_board (rows cols : Int) : binary_board (zero_board rows cols) := by
  intro x hx
  exact Or.inl (List.eq_of_mem_replicate hx)

theorem binary_store (b : List Int) (k : Int) (hb : binary_board b) :
    binary_board (store b k 1) := by
  unfold store
  split_ifs
  · intro x hx
    rcases List.mem_or_eq_of_mem_set hx with h | h
    · exact hb x h
    · exact Or.inr h
  · exact hb

theorem live_count_store (b : List Int) (k : Int) (h0 : 0 ≤ k) (hk : k < b.length)
    (hz : load b k = 0) : live_count (store b k 1) = live_count b + 1 := by
  have hlt : k.toNat < b.length := by omega
  have hz' : b[k.toNat] = 0 := by
    unfold load at hz
    rw [if_pos h0, List.getD_eq_getElem _ _ hlt] at hz
    exact hz
  unfold live_count store
  rw [if_pos h0, List.count_set _ _ _ _ hlt, hz']
  simp

/-! ## Live-count conservation -/

theorem mark_all_spec (data : gol_data) (cs : List (Int × Int)) (b : List Int)
    (hin : ∀ c ∈ cs, in_grid data c) (hnd : cs.Nodup) (hb : binary_board b)
    (hlen : (b.length : Int) = data.rows * data.cols)
    (hz : ∀ c ∈ cs, load b (c.1 * data.cols + c.2) = 0) :
    binary_board (mark_all data b cs) ∧ (mark_all data b cs).length = b.length ∧
      live_count (mark_all data b cs) = live_count b + (cs.length : Int) := by
  induction cs generalizing b with
  | nil => exact ⟨hb, rfl, by simp [mark_all]⟩
  | cons c cs ih =>
    have hc := hin c (List.mem_cons_self c cs)
    have hc' : in_grid data (c.1, c.2) := hc
    obtain ⟨g1, g2, g3, g4⟩ := hc
    have hk := cell_index_bound data.rows data.cols c.1 c.2 g1 g2 g3 g4
    have hcz := hz c (List.mem_cons_self c cs)
    obtain ⟨hnotin, hnd'⟩ := List.nodup_cons.1 hnd
    have e : mark_all data b (c :: cs) =
        mark_all data (store b (c.1 * data.cols + c.2) 1) cs := by
      simp only [mark_all, List.foldl_cons, mark_cell_eq, if_pos hc']
    obtain ⟨i1, i2, i3⟩ := ih (store b (c.1 * data.cols + c.2) 1)
      (fun x hx => hin x (List.mem_cons_of_mem c hx)) hnd' (binary_store b _ hb)
      (by rw [length_store]; exact hlen)
      (by
        intro x hx
        obtain ⟨x1, x2, x3, x4⟩ := hin x (List.mem_cons_of_mem c hx)
        have hxb := cell_index_bound data.rows data.cols x.1 x.2 x1 x2 x3 x4
        rw [load_store_other _ _ _ _ hxb.1]
        · exact hz x (List.mem_cons_of_mem c hx)
        · intro heq
          obtain ⟨e1, e2⟩ := cell_index_inj data.cols c.1 c.2 x.1 x.2 g3 g4 x3 x4 heq
          exact hnotin (by rw [Prod.ext e1 e2]; exact hx))
    rw [e]
    refine ⟨i1, by rw [i2, length_store], ?_⟩
    rw [i3, live_count_store b _ hk.1 (by omega) hcz, List.length_cons]
    push_cast
    ring

/-- The indicator of a live cell after the round is the indicator before plus
the change `play_round` records for the cell. -/
theorem next_cell_indicator (cur old : List Int) (data : gol_data) (k : Nat)
    (hb : binary_board cur) :
    (if next_cell cur old data k = 1 then (1 : Int) else 0) =
      (if cur.getD k 0 = 1 then (1 : Int) else 0) +
        delta_at cur data ((k : Int) / data.cols) ((k : Int) % data.cols) ∧
    (next_cell cur old data k = 0 ∨ next_cell cur old data k = 1) := by
  have hidx : (k : Int) / data.cols * data.cols + (k : Int) % data.cols = k := by
    have := Int.ediv_add_emod (k : Int) data.cols
    rw [mul_comm] at this
    exact this
  have hl : load cur ((k : Int) / data.cols * data.cols + (k : Int) % data.cols) =
      cur.getD k 0 := by
    rw [hidx, load_eq_getD]
  unfold next_cell write_at delta_at cell_write cell_delta upd
  rw [hl]
  have h01 : cur.getD k 0 = 0 ∨ cur.getD k 0 = 1 := by
    rw [← load_eq_getD]
    exact load_binary cur hb k
  generalize neighbors_of cur data ((k : Int) / data.cols) ((k : Int) % data.cols) = n
  rcases h01 with h | h <;> rw [h] <;> by_cases h2 : n = 2 <;> by_cases h3 : n = 3 <;>
    simp [h2, h3]

theorem total_delta_eq_sum (cur : List Int) (data : gol_data)
    (hr : 1 ≤ data.rows) (hc : 1 ≤ data.cols) :
    total_delta cur data =
      ((List.range (data.rows.toNat * data.cols.toNat)).map fun (k : Nat) =>
        delta_at cur data ((k : Int) / data.cols) ((k : Int) % data.cols)).sum := by
  rw [sum_range_mul]
  unfold total_delta grid_delta int_range
  have e1 : (data.rows - 1 + 1 - 0).toNat = data.rows.toNat := by omega
  have e2 : (data.cols - 1 + 1 - 0).toNat = data.cols.toNat := by omega
  rw [e1, e2, List.map_map]
  congr 1
  apply List.map_congr_left
  intro i _
  simp only [Function.comp, List.map_map]
  congr 1
  apply List.map_congr_left
  intro j hj
  have hj' : (j : Int) < data.cols := by
    have := List.mem_range.1 hj
    omega
  have hcast : ((i * data.cols.toNat + j : Nat) : Int) = (j : Int) + data.cols * (i : Int) := by
    push_cast
    have : ((data.cols.toNat : Nat) : Int) = data.cols := by omega
    rw [this]
    ring
  simp only [Function.comp, zero_add]
  rw [hcast, Int.add_mul_ediv_left _ _ (by omega : data.cols ≠ 0),
    Int.add_mul_emod_self_left, Int.ediv_eq_zero_of_lt (by omega) hj',
    Int.emod_eq_of_lt (by omega) hj', zero_add]

theorem next_board_conservation (cur old : List Int) (data : gol_data)
    (hb : binary_board cur) (hr : 1 ≤ data.rows) (hc : 1 ≤ data.cols)
    (hcur : (cur.length : Int) = data.rows * data.cols)
    (hold : (old.length : Int) = data.rows * data.cols) :
    binary_board (next_board_of cur old data) ∧
      live_count (next_board_of cur old data) = live_count cur + total_delta cur data := by
  constructor
  · intro x hx
    unfold next_board_of at hx
    obtain ⟨k, _, rfl⟩ := List.mem_map.1 hx
    exact (next_cell_indicator cur old data k hb).2
  · have hlen : old.length = cur.length := by omega
    have hRC : data.rows.toNat * data.cols.toNat = cur.length := by
      have h1 : ((data.rows.toNat * data.cols.toNat : Nat) : Int) = data.rows * data.cols := by
        push_cast
        have a : ((data.rows.toNat : Nat) : Int) = data.rows := by omega
        have b : ((data.cols.toNat : Nat) : Int) = data.cols := by omega
        rw [a, b]
      omega
    rw [live_count_eq_sum, live_count_eq_sum cur, total_delta_eq_sum cur data hr hc,
      next_board_of_length, hlen, hRC, ← List.sum_map_add]
    congr 1
    apply List.map_congr_left
    intro k hk
    have hk' : k < old.length := by
      have := List.mem_range.1 hk
      omega
    have hg : (next_board_of cur old data).getD k 0 = next_cell cur old data k := by
      rw [← load_eq_getD, load_next_board_of _ _ _ k hk']
    rw [hg]
    exact (next_cell_indicator cur old data k hb).1

theorem life_conservation (k : Nat) (m : Mem) (data : gol_data) (hwf : well_formed m data)
    (hb : binary_board (m.get data.gol_board))
    (htl : m.total_live = live_count (m.get data.gol_board)) :
    (life k m data).1.total_live =
      live_count ((life k m data).1.get (life k m data).2.gol_board) := by
  induction k generalizing m data with
  | zero => exact htl
  | succ k ih =>
    obtain ⟨hp, hcur, hnext, hrows, hcols⟩ := hwf
    obtain ⟨c1, c2⟩ := next_board_conservation (m.get data.gol_board) (m.get data.next_board)
      data hb hrows hcols hcur hnext
    have hnew : (full_round m data).get (swap_boards data).gol_board =
        next_board_of (m.get data.gol_board) (m.get data.next_board) data :=
      full_round_get_next m data
    apply ih (full_round m data) (swap_boards data)
      (well_formed_full_round m data ⟨hp, hcur, hnext, hrows, hcols⟩)
    · rw [hnew]; exact c1
    · rw [hnew, full_round_total_live, c2, htl]

/-! ## Claim C5: `total_live` and the number of live cells -/

/-- C5 as stated fails: the seed `dup_seed` is accepted (declared count 2, the
pair `(1,1)` twice); after one round of one thread `total_live` is `1` while
the board holds no live cell. -/
theorem live_count_not_conserved :
    init_accepts (init_game_data_from_args demo_data dup_args 0 0) = true ∧
    run_summary (main_startup demo_data dup_args 0 0) [[0]] = some (1, [0]) := by
  decide

/-- C5 amended.  For a seed with `rows, cols ≥ 1` whose declared count is the
number of its coordinate pairs, the pairs being pairwise distinct and inside
`[0,rows) x [0,cols)`, for every thread count `T ≥ 1`, either orientation and
any number of rounds (any order of the threads in each): `total_live` equals
the number of cells equal to `1` in the current board, after loading and after
the rounds. -/
theorem live_count_conservation (data0 : gol_data) (argv : Args) (f : SeedFile)
    (row col : Int) (T : Nat) (sched : List (List Nat))
    (hfile : argv.infile = some f)
    (hmode : argv.output_mode = 0 ∨ argv.output_mode = 1 ∨ argv.output_mode = 2)
    (hpm : argv.part_mode = 0 ∨ argv.part_mode = 1)
    (hthreads : argv.threads = (T : Int)) (hT : 1 ≤ T)
    (hrows : 1 ≤ f.rows) (hcols : 1 ≤ f.cols)
    (hn : f.total_live = (f.cells.length : Int))
    (hin : ∀ c ∈ f.cells, 0 ≤ c.1 ∧ c.1 < f.rows ∧ 0 ≤ c.2 ∧ c.2 < f.cols)
    (hnd : f.cells.Nodup)
    (hs : ∀ o ∈ sched, o.Perm (List.range T)) :
    ∃ data m targs,
      init_game_data_from_args data0 argv row col = .ok (data, m) ∧
      main_targs data T = some targs ∧
      m.total_live = live_count (current_board m data) ∧
      ∀ d ∈ (play_gol m targs sched).2,
        (play_gol m targs sched).1.total_live =
          live_count (current_board (play_gol m targs sched).1 d) := by
  have hinit := init_game_data_ok data0 argv f row col hfile hmode hn
    (fun c hc => by have := hin c hc; omega)
  obtain ⟨s1, s2, s3⟩ := mark_all_spec (init_data data0 argv f) f.cells
    (zero_board f.rows f.cols) hin hnd (binary_zero_board _ _)
    (zero_board_length _ _ hrows hcols) (fun c _ => load_zero_board _ _ _)
  rw [live_count_zero_board, zero_add] at s3
  have hwf : well_formed
      { board_fst := mark_all (init_data data0 argv f) (zero_board f.rows f.cols) f.cells,
        board_snd := zero_board f.rows f.cols, total_live := f.total_live }
      (init_data data0 argv f) := by
    refine ⟨by simp [init_data], ?_, zero_board_length _ _ hrows hcols, hrows, hcols⟩
    show ((mark_all (init_data data0 argv f) (zero_board f.rows f.cols) f.cells).length : Int) = _
    rw [s2]
    exact zero_board_length _ _ hrows hcols
  have hT0 : (init_data data0 argv f).threads ≠ 0 := by
    show argv.threads ≠ 0
    omega
  have e := play_gol_eq_life (init_data data0 argv f) _ hwf hpm
    (init_data_runs_loop data0 argv f hmode) T hT hthreads sched hs
  have hcons := life_conservation sched.length _ (init_data data0 argv f) hwf s1
    (by
      show f.total_live = live_count (mark_all _ _ _)
      rw [s3, hn])
  refine ⟨_, _, _, hinit, main_targs_eq _ hpm hT0 T, ?_, ?_⟩
  · show f.total_live = live_count (mark_all _ _ _)
    rw [s3, hn]
  · intro d hd
    rw [e] at hd ⊢
    simp only [team_of, List.mem_map, List.mem_range] at hd
    obtain ⟨t, _, rfl⟩ := hd
    exact hcons

/-- Witness for the amended C5: `pair_args`, two rounds of two threads. -/
theorem live_count_conservation_witness :
    (1 : Int) ≤ pair_seed.rows ∧ (1 : Int) ≤ pair_seed.cols ∧
    pair_seed.total_live = (pair_seed.cells.length : Int) ∧
    (∀ c ∈ pair_seed.cells,
      0 ≤ c.1 ∧ c.1 < pair_seed.rows ∧ 0 ≤ c.2 ∧ c.2 < pair_seed.cols) ∧
    pair_seed.cells.Nodup ∧
    (∀ o ∈ [[1, 0], [0, 1]], o.Perm (List.range 2)) ∧
    ∃ data m targs,
      init_game_data_from_args demo_data pair_args 0 0 = .ok (data, m) ∧
      main_targs data 2 = some targs ∧
      m.total_live = live_count (current_board m data) ∧
      ∀ d ∈ (play_gol m targs [[1, 0], [0, 1]]).2,
        (play_gol m targs [[1, 0], [0, 1]]).1.total_live =
          live_count (current_board (play_gol m targs [[1, 0], [0, 1]]).1 d) :=
  ⟨by decide, by decide, by decide, by decide, by decide, by decide,
    live_count_conservation demo_data pair_args pair_seed 0 0 2 [[1, 0], [0, 1]]
      rfl (by decide) (by decide) rfl (by decide) (by decide) (by decide) (by decide)
      (by decide) (by decide) (by decide)⟩

/-- For a thread count between 1 and 50 `main` creates exactly the threads of
`main_targs` for that count. -/
theorem main_startup_started (data0 : gol_data) (argv : Args) (row col : Int)
    (d : gol_data) (m : Mem) (targs : List gol_data)
    (hok : init_game_data_from_args data0 argv row col = .ok (d, m))
    (h1 : 1 ≤ argv.threads) (h50 : argv.threads ≤ 50)
    (hts : main_targs d argv.threads.toNat = some targs) :
    main_startup data0 argv row col = .started m d targs := by
  have hn : main_ntids argv = argv.threads := by
    unfold main_ntids
    rw [if_neg (by omega)]
  unfold main_startup
  rw [hok]
  simp only [hn, hts]

/-! ## Claim C11: the threads `main` creates -/

theorem init_ok_data (data0 : gol_data) (argv : Args) (row col : Int) (d : gol_data) (m : Mem)
    (hok : init_game_data_from_args data0 argv row col = .ok (d, m)) :
    ∃ f, argv.infile = some f ∧ d = init_data data0 argv f := by
  by_cases hmode : argv.output_mode = 0 ∨ argv.output_mode = 1 ∨ argv.output_mode = 2
  · have hcase : argv.infile = none ∨ ∃ f, argv.infile = some f := by
      cases argv.infile with
      | none => exact Or.inl rfl
      | some f => exact Or.inr ⟨f, rfl⟩
    rcases hcase with hf | ⟨f, hf⟩
    · simp [init_game_data_from_args, hmode, hf] at hok
    · refine ⟨f, hf, ?_⟩
      rw [init_game_data_eq data0 argv f row col hf hmode] at hok
      cases hb : init_board (init_mem f)
          { init_data data0 argv f with next_board := data0.next_board } row col f.cells with
      | error e => rw [hb] at hok; simp at hok
      | ok m' =>
        rw [hb] at hok
        simp only [Except.ok.injEq, Prod.mk.injEq] at hok
        exact hok.1.symm
  · simp [init_game_data_from_args, hmode] at hok

/-- C11 as stated fails: asked for 51 threads on 60 rows, `main` creates 10
threads, and no created thread has row 59 in its range. -/
theorem fifty_one_threads_not_created :
    (1 : Int) ≤ many_args.threads ∧
    init_accepts (init_game_data_from_args demo_data many_args 0 0) = true ∧
    threads_created (main_startup demo_data many_args 0 0) = 10 ∧
    covered_by (main_startup demo_data many_args 0 0) 59 = false := by
  decide

/-- C11 amended.  For an accepted configuration with thread-count argument
`n ≥ 1` and orientation flag 0 or 1: when `n ≤ 50`, `main` creates exactly `n`
threads, thread `t` carrying the index `t` and the range `partition` computes
for `t`; `n` is also `data.threads`, by which `partition` divides, and the count
of the barrier; and every row (or column) of the grid lies in the range of a
created thread.  When `n > 50`, `main` creates 10 threads. -/
theorem one_worker_per_partition (data0 : gol_data) (argv : Args) (row col : Int)
    (d : gol_data) (m : Mem)
    (hok : init_game_data_from_args data0 argv row col = .ok (d, m))
    (h1 : 1 ≤ argv.threads)
    (hpm : argv.part_mode = 0 ∨ argv.part_mode = 1) :
    ∃ targs,
      main_startup data0 argv row col = .started m d targs ∧
      (argv.threads ≤ 50 →
        (targs.length : Int) = argv.threads ∧
        d.threads = argv.threads ∧
        main_barrier_count d = argv.threads ∧
        (∀ t : Nat, t < targs.length →
          ∃ w, targs[t]? = some w ∧ w.ntids = (t : Int) ∧
            thread_range d (t : Int) = some (w.start, w.end_)) ∧
        (∀ x : Int, 0 ≤ x → x < split_dim d →
          ∃ t : Nat, t < targs.length ∧
            ∃ w, targs[t]? = some w ∧ w.start ≤ x ∧ x ≤ w.end_)) ∧
      (50 < argv.threads → targs.length = 10) := by
  obtain ⟨f, hf, rfl⟩ := init_ok_data data0 argv row col d m hok
  have hth : (init_data data0 argv f).threads = argv.threads := rfl
  have hT0 : (init_data data0 argv f).threads ≠ 0 := by rw [hth]; omega
  have hpm' : (init_data data0 argv f).part_mode = 0 ∨ (init_data data0 argv f).part_mode = 1 :=
    hpm
  have hstart : main_startup data0 argv row col =
      .started m (init_data data0 argv f)
        (team_of (init_data data0 argv f) (main_ntids argv).toNat) := by
    unfold main_startup
    rw [hok]
    simp only [main_targs_eq (init_data data0 argv f) hpm' hT0]
  refine ⟨_, hstart, ?_, ?_⟩
  · intro h50
    have hn : main_ntids argv = argv.threads := by
      unfold main_ntids
      rw [if_neg (by omega)]
    have hlen : (team_of (init_data data0 argv f) (main_ntids argv).toNat).length =
        argv.threads.toNat := by
      simp [team_of, hn]
    refine ⟨by rw [hlen]; omega, hth, hth, ?_, ?_⟩
    · intro t ht
      rw [hlen] at ht
      refine ⟨thread_of (init_data data0 argv f) (t : Int), ?_, rfl, ?_⟩
      · rw [hn]
        exact team_of_getElem _ _ t ht
      · exact thread_range_eq (init_data data0 argv f) hpm' hT0 (t : Int)
    · intro x hx0 hxD
      obtain ⟨t, ht0, htT, hs, he⟩ := range_cover (split_dim (init_data data0 argv f))
        (init_data data0 argv f).threads (by omega) (by rw [hth]; exact h1) x hx0 hxD
      rw [hth] at htT
      refine ⟨t.toNat, by rw [hlen]; omega, thread_of (init_data data0 argv f) t, ?_, hs, he⟩
      rw [hn]
      have e : ((t.toNat : Nat) : Int) = t := by omega
      rw [← e]
      exact team_of_getElem _ _ t.toNat (by omega)
  · intro h50
    have hn : main_ntids argv = 10 := by
      unfold main_ntids
      rw [if_pos (Or.inr h50)]
    simp [team_of, hn]

/-- Witness for the amended C11: `empty_args`, two threads, column-wise. -/
theorem one_worker_per_partition_witness :
    init_game_data_from_args demo_data empty_args 0 0 =
      .ok (init_data demo_data empty_args empty_seed, ⟨zero_board 3 3, zero_board 3 3, 0⟩) ∧
    (1 : Int) ≤ empty_args.threads ∧
    (empty_args.part_mode = 0 ∨ empty_args.part_mode = 1) ∧
    ∃ targs,
      main_startup demo_data empty_args 0 0 =
        .started ⟨zero_board 3 3, zero_board 3 3, 0⟩
          (init_data demo_data empty_args empty_seed) targs ∧
      (empty_args.threads ≤ 50 →
        (targs.length : Int) = empty_args.threads ∧
        (init_data demo_data empty_args empty_seed).threads = empty_args.threads ∧
        main_barrier_count (init_data demo_data empty_args empty_seed) = empty_args.threads ∧
        (∀ t : Nat, t < targs.length →
          ∃ w, targs[t]? = some w ∧ w.ntids = (t : Int) ∧
            thread_range (init_data demo_data empty_args empty_seed) (t : Int) =
              some (w.start, w.end_)) ∧
        (∀ x : Int, 0 ≤ x → x < split_dim (init_data demo_data empty_args empty_seed) →
          ∃ t : Nat, t < targs.length ∧
            ∃ w, targs[t]? = some w ∧ w.start ≤ x ∧ x ≤ w.end_)) ∧
      (50 < empty_args.threads → targs.length = 10) :=
  ⟨rfl, by decide, by decide,
    one_worker_per_partition demo_data empty_args 0 0
      (init_data demo_data empty_args empty_seed) ⟨zero_board 3 3, zero_board 3 3, 0⟩
      rfl (by decide) (by decide)⟩

/-! ## Claim C14: what `play_round` writes -/

theorem grid_step_no_cols (cur : List Int) (d : gol_data) (is : List Int)
    (p : List Int × Int) : grid_step cur d is [] p = p := by
  unfold grid_step
  induction is with
  | nil => rfl
  | cons i is ih =>
    rw [List.foldl_cons]
    exact ih

theorem visit_empty (d : gol_data) (h : d.end_ < d.start) :
    visit_rows d = [] ∨ visit_cols d = [] := by
  unfold visit_rows visit_cols
  by_cases h0 : d.part_mode = 0
  · left
    rw [if_pos h0]
    exact int_range_empty _ _ h
  · by_cases h1 : d.part_mode = 1
    · right
      rw [if_neg h0, if_pos h1]
      exact int_range_empty _ _ h
    · left
      rw [if_neg h0, if_neg h1]

/-- A thread with an empty range leaves the whole memory as it is. -/
theorem play_round_empty (m : Mem) (d : gol_data) (hp : d.gol_board ≠ d.next_board)
    (h : d.end_ < d.start) : play_round m d = m := by
  rw [play_round_eq m d hp]
  have e : grid_step (m.get d.gol_board) d (visit_rows d) (visit_cols d)
      (m.get d.next_board, 0) = (m.get d.next_board, 0) := by
    rcases visit_empty d h with h1 | h1
    · rw [h1]; rfl
    · rw [h1]; exact grid_step_no_cols _ _ _ _
  rw [e, Mem.set_get]
  simp

/-- C14 (partition-exclusive writes).  For a thread whose range lies in the
dimension it splits, or is empty: `play_round` leaves the whole of `gol_board`
unchanged; `next_board` keeps its length, and a cell `(i, j)` of the grid whose
value in `next_board` changes has its row `i` in `[start, end]` when
`part_mode = 0` and its column `j` in `[start, end]` when `part_mode = 1`;
with an empty range (`end < start`) the memory, `total_live` included, is
unchanged. -/
theorem play_round_frame (m : Mem) (data : gol_data)
    (hp : data.gol_board ≠ data.next_board)
    (hnext : ((m.get data.next_board).length : Int) = data.rows * data.cols)
    (hr : range_in_grid data ∨ data.end_ < data.start) :
    (play_round m data).get data.gol_board = m.get data.gol_board ∧
    ((play_round m data).get data.next_board).length = (m.get data.next_board).length ∧
    (∀ i j : Int, 0 ≤ i → i < data.rows → 0 ≤ j → j < data.cols →
      load ((play_round m data).get data.next_board) (i * data.cols + j) ≠
          load (m.get data.next_board) (i * data.cols + j) →
        (data.part_mode = 0 ∧ data.start ≤ i ∧ i ≤ data.end_) ∨
        (data.part_mode = 1 ∧ data.start ≤ j ∧ j ≤ data.end_)) ∧
    (data.end_ < data.start →
      play_round m data = m ∧
      (play_round m data).get data.next_board = m.get data.next_board ∧
      (play_round m data).total_live = m.total_live) := by
  refine ⟨play_round_get_gol m data hp, play_round_length m data hp, ?_, ?_⟩
  · intro i j hi0 hi hj0 hj hne
    rcases hr with hr | he
    · rw [play_round_load m data hp hnext hr i j hi0 hj0 hj] at hne
      by_cases hin : in_partition data i j
      · rcases hin with ⟨h0, a, b, _, _⟩ | ⟨h1, _, _, a, b⟩
        · exact Or.inl ⟨h0, a, b⟩
        · exact Or.inr ⟨h1, a, b⟩
      · rw [if_neg hin] at hne
        exact absurd rfl hne
    · rw [play_round_empty m data hp he] at hne
      exact absurd rfl hne
  · intro he
    have e := play_round_empty m data hp he
    exact ⟨e, by rw [e], by rw [e]⟩

/-- Witness for C14: the thread of `demo_data` on `demo_mem`. -/
theorem play_round_frame_witness :
    demo_data.gol_board ≠ demo_data.next_board ∧
    ((demo_mem.get demo_data.next_board).length : Int) = demo_data.rows * demo_data.cols ∧
    range_in_grid demo_data ∧
    ((play_round demo_mem demo_data).get demo_data.gol_board = demo_mem.get demo_data.gol_board ∧
    ((play_round demo_mem demo_data).get demo_data.next_board).length =
      (demo_mem.get demo_data.next_board).length ∧
    (∀ i j : Int, 0 ≤ i → i < demo_data.rows → 0 ≤ j → j < demo_data.cols →
      load ((play_round demo_mem demo_data).get demo_data.next_board)
            (i * demo_data.cols + j) ≠
          load (demo_mem.get demo_data.next_board) (i * demo_data.cols + j) →
        (demo_data.part_mode = 0 ∧ demo_data.start ≤ i ∧ i ≤ demo_data.end_) ∨
        (demo_data.part_mode = 1 ∧ demo_data.start ≤ j ∧ j ≤ demo_data.end_)) ∧
    (demo_data.end_ < demo_data.start →
      play_round demo_mem demo_data = demo_mem ∧
      (play_round demo_mem demo_data).get demo_data.next_board =
        demo_mem.get demo_data.next_board ∧
      (play_round demo_mem demo_data).total_live = demo_mem.total_live)) :=
  ⟨by decide, by decide, by decide,
    play_round_frame demo_mem demo_data (by decide) (by decide) (Or.inl (by decide))⟩

/-! ## Claim C13: the delta a thread adds to `total_live` -/

theorem sum_flatMap_map {α β : Type} (l : List α) (f : α → List β) (g : β → Int) :
    ((l.flatMap f).map g).sum = (l.map fun a => ((f a).map g).sum).sum := by
  induction l with
  | nil => rfl
  | cons a l ih =>
    rw [List.flatMap_cons, List.map_append, List.sum_append, ih, List.map_cons, List.sum_cons]

theorem countP_eq_sum {α : Type} (l : List α) (p : α → Bool) :
    ((l.countP p : Nat) : Int) = (l.map fun a => if p a = true then (1 : Int) else 0).sum := by
  induction l with
  | nil => rfl
  | cons a l ih =>
    rw [List.countP_cons, List.map_cons, List.sum_cons, ← ih]
    by_cases h : p a = true
    · simp [h, add_comm]
    · simp [h]

theorem sum_map_sub_sum {α : Type} (l : List α) (f g : α → Int) :
    (l.map f).sum - (l.map g).sum = (l.map fun a => f a - g a).sum := by
  induction l with
  | nil => rfl
  | cons a l ih =>
    simp only [List.map_cons, List.sum_cons, ← ih]
    ring

theorem grid_delta_eq_cells (cur : List Int) (d : gol_data) :
    grid_delta cur d (visit_rows d) (visit_cols d) =
      ((partition_cells d).map fun c => delta_at cur d c.1 c.2).sum := by
  unfold grid_delta partition_cells
  rw [sum_flatMap_map]
  congr 1
  apply List.map_congr_left
  intro i _
  rw [List.map_map]
  rfl

theorem mem_partition_cells (d : gol_data) (c : Int × Int) :
    c ∈ partition_cells d ↔ in_partition d c.1 c.2 := by
  rw [← mem_visit_iff]
  unfold partition_cells
  simp only [List.mem_flatMap, List.mem_map]
  constructor
  · rintro ⟨i, hi, j, hj, rfl⟩
    exact ⟨hi, hj⟩
  · rintro ⟨hi, hj⟩
    exact ⟨c.1, hi, c.2, hj, rfl⟩

/-- For a cell of a binary board, the change recorded by `play_round` in terms
of the value before and the value stored. -/
theorem delta_at_indicator (cur : List Int) (d : gol_data) (i j old : Int)
    (hb : binary_board cur) :
    delta_at cur d i j =
      (if load cur (i * d.cols + j) = 0 ∧ upd (write_at cur d i j) old = 1 then (1 : Int) else 0) -
      (if load cur (i * d.cols + j) = 1 ∧ upd (write_at cur d i j) old = 0 then (1 : Int) else 0) ∧
    delta_at cur d i j =
      (if upd (write_at cur d i j) old = 1 then (1 : Int) else 0) -
      (if load cur (i * d.cols + j) = 1 then (1 : Int) else 0) := by
  unfold delta_at write_at cell_delta cell_write upd
  generalize neighbors_of cur d i j = n
  rcases load_binary cur hb (i * d.cols + j) with h | h <;> rw [h] <;>
    by_cases h2 : n = 2 <;> by_cases h3 : n = 3 <;> simp [h2, h3]

theorem int_range_nodup (lo hi : Int) : (int_range lo hi).Nodup := by
  unfold int_range
  apply List.Nodup.map _ (List.nodup_range _)
  intro a b h
  simp only at h
  omega

theorem visit_nodup (d : gol_data) : (visit_rows d).Nodup ∧ (visit_cols d).Nodup := by
  unfold visit_rows visit_cols
  constructor <;> split_ifs <;> first | exact int_range_nodup _ _ | exact List.nodup_nil

/-- The cells of a partition are listed once each. -/
theorem partition_cells_nodup (d : gol_data) : (partition_cells d).Nodup :=
  List.Nodup.product (visit_nodup d).1 (visit_nodup d).2

/-- C13 (per-thread delta).  On a board of zeros and ones, for a thread whose
range lies in the dimension it splits or is empty: one call of `play_round`
adds to `total_live`, once, the number of cells of the partition that are `0` in
`gol_board` and `1` in the new `next_board` minus the number that are `1` in
`gol_board` and `0` in the new `next_board`; and that difference is the live
count of the new `next_board` on the partition minus the live count of
`gol_board` on the partition.  The counts run over `partition_cells`, which
lists each cell of the partition once. -/
theorem play_round_delta (m : Mem) (data : gol_data)
    (hp : data.gol_board ≠ data.next_board)
    (hcur : ((m.get data.gol_board).length : Int) = data.rows * data.cols)
    (hnext : ((m.get data.next_board).length : Int) = data.rows * data.cols)
    (hbin : binary_board (m.get data.gol_board))
    (hr : range_in_grid data ∨ data.end_ < data.start) :
    (partition_cells data).Nodup ∧
    (∀ c : Int × Int, c ∈ partition_cells data ↔ in_partition data c.1 c.2) ∧
    (play_round m data).total_live =
        m.total_live +
          (born_count data (m.get data.gol_board) ((play_round m data).get data.next_board) -
           died_count data (m.get data.gol_board) ((play_round m data).get data.next_board)) ∧
    born_count data (m.get data.gol_board) ((play_round m data).get data.next_board) -
        died_count data (m.get data.gol_board) ((play_round m data).get data.next_board) =
      live_in data ((play_round m data).get data.next_board) -
        live_in data (m.get data.gol_board) := by
  refine ⟨partition_cells_nodup data, mem_partition_cells data, ?_⟩
  rcases hr with hr | he
  · have hcell : ∀ c ∈ partition_cells data,
        load ((play_round m data).get data.next_board) (c.1 * data.cols + c.2) =
          upd (write_at (m.get data.gol_board) data c.1 c.2)
            (load (m.get data.next_board) (c.1 * data.cols + c.2)) := by
      intro c hc
      have hin := (mem_partition_cells data c).1 hc
      have hv := (mem_visit_iff data c.1 c.2).2 hin
      have h1 := visit_rows_bound data hr c.1 hv.1
      have h2 := visit_cols_bound data hr c.2 hv.2
      rw [play_round_load m data hp hnext hr c.1 c.2 h1.1 h2.1 h2.2, if_pos hin]
    have hB : born_count data (m.get data.gol_board) ((play_round m data).get data.next_board) -
        died_count data (m.get data.gol_board) ((play_round m data).get data.next_board) =
        ((partition_cells data).map fun c => delta_at (m.get data.gol_board) data c.1 c.2).sum := by
      unfold born_count died_count
      rw [countP_eq_sum, countP_eq_sum, sum_map_sub_sum]
      congr 1
      apply List.map_congr_left
      intro c hc
      simp only [decide_eq_true_eq]
      rw [hcell c hc]
      exact ((delta_at_indicator _ data c.1 c.2 _ hbin).1).symm
    have hL : live_in data ((play_round m data).get data.next_board) -
        live_in data (m.get data.gol_board) =
        ((partition_cells data).map fun c => delta_at (m.get data.gol_board) data c.1 c.2).sum := by
      unfold live_in
      rw [countP_eq_sum, countP_eq_sum, sum_map_sub_sum]
      congr 1
      apply List.map_congr_left
      intro c hc
      simp only [decide_eq_true_eq]
      rw [hcell c hc]
      exact ((delta_at_indicator _ data c.1 c.2 _ hbin).2).symm
    refine ⟨?_, by rw [hB, hL]⟩
    rw [hB, play_round_total_live m data hp, grid_delta_eq_cells]
  · have hnil : partition_cells data = [] := by
      unfold partition_cells
      rcases visit_empty data he with h | h
      · rw [h]; rfl
      · rw [h]; simp
    rw [play_round_empty m data hp he]
    simp [born_count, died_count, live_in, hnil]

/-- Witness for C13: the thread of `demo_data` on `demo_mem`. -/
theorem play_round_delta_witness :
    demo_data.gol_board ≠ demo_data.next_board ∧
    ((demo_mem.get demo_data.gol_board).length : Int) = demo_data.rows * demo_data.cols ∧
    ((demo_mem.get demo_data.next_board).length : Int) = demo_data.rows * demo_data.cols ∧
    binary_board (demo_mem.get demo_data.gol_board) ∧
    range_in_grid demo_data ∧
    ((partition_cells demo_data).Nodup ∧
    (∀ c : Int × Int, c ∈ partition_cells demo_data ↔ in_partition demo_data c.1 c.2) ∧
    (play_round demo_mem demo_data).total_live =
        demo_mem.total_live +
          (born_count demo_data (demo_mem.get demo_data.gol_board)
              ((play_round demo_mem demo_data).get demo_data.next_board) -
           died_count demo_data (demo_mem.get demo_data.gol_board)
              ((play_round demo_mem demo_data).get demo_data.next_board)) ∧
    born_count demo_data (demo_mem.get demo_data.gol_board)
          ((play_round demo_mem demo_data).get demo_data.next_board) -
        died_count demo_data (demo_mem.get demo_data.gol_board)
          ((play_round demo_mem demo_data).get demo_data.next_board) =
      live_in demo_data ((play_round demo_mem demo_data).get demo_data.next_board) -
        live_in demo_data (demo_mem.get demo_data.gol_board)) :=
  ⟨by decide, by decide, by decide, by decide, by decide,
    play_round_delta demo_mem demo_data (by decide) (by decide) (by decide) (by decide)
      (Or.inl (by decide))⟩

/-! ## Claim C15: which buffer holds the last generation -/

theorem neighbors_of_eq_toroidal (cur : List Int) (d : gol_data) (i j : Int)
    (hr : 1 ≤ d.rows) (hc : 1 ≤ d.cols) (hi0 : 0 ≤ i) (hj0 : 0 ≤ j) :
    neighbors_of cur d i j = toroidal_count cur d.rows d.cols i j := by
  have h := count_neighbors_eq_toroidal ⟨cur, cur, 0⟩ d i j hr hc hi0 hj0
  have e : Mem.get ⟨cur, cur, 0⟩ d.gol_board = cur := by
    cases d.gol_board <;> rfl
  rw [e] at h
  rw [← h]
  unfold count_neighbors neighbors_of
  rw [e]

theorem next_board_eq_generation (cur old : List Int) (d : gol_data)
    (hb : binary_board cur) (hr : 1 ≤ d.rows) (hc : 1 ≤ d.cols)
    (hcur : (cur.length : Int) = d.rows * d.cols)
    (hold : (old.length : Int) = d.rows * d.cols) :
    next_board_of cur old d = next_generation d.rows d.cols cur := by
  have hlen : old.length = cur.length := by omega
  unfold next_board_of next_generation
  rw [hlen]
  apply List.map_congr_left
  intro k _
  have hi0 : 0 ≤ (k : Int) / d.cols := Int.ediv_nonneg (by omega) (by omega)
  have hj0 : 0 ≤ (k : Int) % d.cols := Int.emod_nonneg _ (by omega)
  unfold next_cell write_at rule_cell cell_write upd
  rw [neighbors_of_eq_toroidal cur d _ _ hr hc hi0 hj0]
  generalize toroidal_count cur d.rows d.cols ((k : Int) / d.cols) ((k : Int) % d.cols) = n
  rcases load_binary cur hb ((k : Int) / d.cols * d.cols + (k : Int) % d.cols) with h | h <;>
    rw [h] <;> by_cases h2 : n = 2 <;> by_cases h3 : n = 3 <;> simp [h2, h3]

/-- After `k` whole rounds the current board of the threads is generation `k`. -/
theorem life_generation (k : Nat) (m : Mem) (d : gol_data) (hwf : well_formed m d)
    (hb : binary_board (m.get d.gol_board)) :
    (life k m d).1.get (life k m d).2.gol_board =
      generation d.rows d.cols k (m.get d.gol_board) := by
  induction k generalizing m d with
  | zero => rfl
  | succ k ih =>
    obtain ⟨hp, hcur, hnext, hrows, hcols⟩ := hwf
    have hnew : (full_round m d).get (swap_boards d).gol_board =
        next_board_of (m.get d.gol_board) (m.get d.next_board) d := full_round_get_next m d
    have hbin := (next_board_conservation (m.get d.gol_board) (m.get d.next_board) d hb
      hrows hcols hcur hnext).1
    have h := ih (full_round m d) (swap_boards d)
      (well_formed_full_round m d ⟨hp, hcur, hnext, hrows, hcols⟩) (by rw [hnew]; exact hbin)
    rw [hnew, next_board_eq_generation _ _ d hb hrows hcols hcur hnext] at h
    exact h

/-- After `k + 1` whole rounds the other board of the threads is generation `k`. -/
theorem life_previous_generation (k : Nat) (m : Mem) (d : gol_data) (hwf : well_formed m d)
    (hb : binary_board (m.get d.gol_board)) :
    (life (k + 1) m d).1.get (life (k + 1) m d).2.next_board =
      generation d.rows d.cols k (m.get d.gol_board) := by
  induction k generalizing m d with
  | zero =>
    show (full_round m d).get d.gol_board = m.get d.gol_board
    exact full_round_get_gol m d hwf.1
  | succ k ih =>
    obtain ⟨hp, hcur, hnext, hrows, hcols⟩ := hwf
    have hnew : (full_round m d).get (swap_boards d).gol_board =
        next_board_of (m.get d.gol_board) (m.get d.next_board) d := full_round_get_next m d
    have hbin := (next_board_conservation (m.get d.gol_board) (m.get d.next_board) d hb
      hrows hcols hcur hnext).1
    have h := ih (full_round m d) (swap_boards d)
      (well_formed_full_round m d ⟨hp, hcur, hnext, hrows, hcols⟩) (by rw [hnew]; exact hbin)
    rw [hnew, next_board_eq_generation _ _ d hb hrows hcols hcur hnext] at h
    exact h

/-- The pointers of a thread after `k` swaps, by the parity of `k`. -/
theorem life_pointers (k : Nat) (m : Mem) (d : gol_data) :
    (life k m d).2.gol_board = (if k % 2 = 0 then d.gol_board else d.next_board) ∧
    (life k m d).2.next_board = (if k % 2 = 0 then d.next_board else d.gol_board) := by
  induction k generalizing m d with
  | zero => exact ⟨rfl, rfl⟩
  | succ k ih =>
    obtain ⟨h1, h2⟩ := ih (full_round m d) (swap_boards d)
    show (life k (full_round m d) (swap_boards d)).2.gol_board = _ ∧
      (life k (full_round m d) (swap_boards d)).2.next_board = _
    rw [h1, h2]
    rcases Nat.mod_two_eq_zero_or_one k with hk | hk
    · have : (k + 1) % 2 = 1 := by omega
      simp [hk, this, swap_boards]
    · have : (k + 1) % 2 = 0 := by omega
      simp [hk, this, swap_boards]

/-- The threads' view: after the rounds of `sched`, the board every thread
designates as current is generation `sched.length` of the seed board. -/
theorem workers_hold_generation (m : Mem) (d : gol_data) (T : Nat) (sched : List (List Nat))
    (hwf : well_formed m d) (hb : binary_board (m.get d.gol_board))
    (hm : d.part_mode = 0 ∨ d.part_mode = 1) (hrun : runs_loop d = true)
    (hT : 1 ≤ T) (hTd : d.threads = (T : Int))
    (hs : ∀ o ∈ sched, o.Perm (List.range T)) :
    ∀ w ∈ (play_gol m (team_of d T) sched).2,
      current_board (play_gol m (team_of d T) sched).1 w =
        generation d.rows d.cols sched.length (m.get d.gol_board) := by
  intro w hw
  rw [play_gol_eq_life d m hwf hm hrun T hT hTd sched hs] at hw ⊢
  simp only [team_of, List.mem_map, List.mem_range] at hw
  obtain ⟨t, _, rfl⟩ := hw
  exact life_generation sched.length m d hwf hb

/-- The driver's view: `main`'s own struct is never swapped, so the board it
designates is generation `sched.length` after an even number of rounds and the
generation before it after an odd number. -/
theorem driver_holds_even_generation (m : Mem) (d : gol_data) (T : Nat)
    (sched : List (List Nat))
    (hwf : well_formed m d) (hb : binary_board (m.get d.gol_board))
    (hm : d.part_mode = 0 ∨ d.part_mode = 1) (hrun : runs_loop d = true)
    (hT : 1 ≤ T) (hTd : d.threads = (T : Int))
    (hs : ∀ o ∈ sched, o.Perm (List.range T)) :
    current_board (play_gol m (team_of d T) sched).1 d =
      if sched.length % 2 = 0 then generation d.rows d.cols sched.length (m.get d.gol_board)
      else generation d.rows d.cols (sched.length - 1) (m.get d.gol_board) := by
  rw [play_gol_eq_life d m hwf hm hrun T hT hTd sched hs]
  obtain ⟨p1, p2⟩ := life_pointers sched.length m d
  show (life sched.length m d).1.get d.gol_board = _
  by_cases hk : sched.length % 2 = 0
  · rw [if_pos hk] at p1 ⊢
    have e : (life sched.length m d).1.get d.gol_board =
        (life sched.length m d).1.get (life sched.length m d).2.gol_board := by rw [p1]
    rw [e]
    exact life_generation sched.length m d hwf hb
  · rw [if_neg hk] at p2 ⊢
    obtain ⟨k, hk1⟩ : ∃ k, sched.length = k + 1 := ⟨sched.length - 1, by omega⟩
    rw [hk1] at p2 ⊢
    have e : (life (k + 1) m d).1.get d.gol_board =
        (life (k + 1) m d).1.get (life (k + 1) m d).2.next_board := by rw [p2]
    rw [e, Nat.add_sub_cancel]
    exact life_previous_generation k m d hwf hb

/-- C15 at the failing input: the seed `single_seed` (centre cell of a 3 x 3
grid alive) run for one round with one thread.  Generation 1 is the empty
board, and the thread's `gol_board` designates it; `main`'s own
`data.gol_board` still designates the block that holds the seed. -/
theorem driver_board_stale :
    init_accepts (init_game_data_from_args demo_data single_args 0 0) = true ∧
    generation 3 3 1 (board_of_cells 3 3 single_seed.cells) = zero_board 3 3 ∧
    worker_boards (main_startup demo_data single_args 0 0) [[0]] = some [zero_board 3 3] ∧
    driver_board (main_startup demo_data single_args 0 0) [[0]] =
      some (board_of_cells 3 3 single_seed.cells) ∧
    board_of_cells 3 3 single_seed.cells ≠ zero_board 3 3 := by
  decide

/-- Instance of the threads' and the driver's view: `demo_mem` after one round
of the single thread. -/
theorem driver_holds_even_generation_witness :
    well_formed demo_mem demo_data ∧ binary_board (demo_mem.get demo_data.gol_board) ∧
    (∀ o ∈ [[0]], o.Perm (List.range 1)) ∧
    (∀ w ∈ (play_gol demo_mem (team_of demo_data 1) [[0]]).2,
      current_board (play_gol demo_mem (team_of demo_data 1) [[0]]).1 w =
        generation demo_data.rows demo_data.cols [[0]].length
          (demo_mem.get demo_data.gol_board)) ∧
    current_board (play_gol demo_mem (team_of demo_data 1) [[0]]).1 demo_data =
      (if [[0]].length % 2 = 0 then
        generation demo_data.rows demo_data.cols [[0]].length (demo_mem.get demo_data.gol_board)
      else
        generation demo_data.rows demo_data.cols ([[0]].length - 1)
          (demo_mem.get demo_data.gol_board)) :=
  ⟨by decide, by decide, by decide,
    workers_hold_generation demo_mem demo_data 1 [[0]] (by decide) (by decide) (by decide)
      (by decide) (by decide) rfl (by decide),
    driver_holds_even_generation demo_mem demo_data 1 [[0]] (by decide) (by decide) (by decide)
      (by decide) (by decide) rfl (by decide)⟩

end GOL
